import Mathlib

/-!
Verification of the tiger-compiler front end (semantic analysis, escape
analysis, IR translation) against its natural-language specification.

The C++ sources are embedded shallowly:
* `shared_ptr<Type>` identity becomes an index into an explicit heap
  (`TypeHeap`); the mutable `NameType::binding_` becomes an updatable field
  of the heap entry.
* the visitor classes become state-passing functions in the `TigerM` monad
  (state + first-error short circuit, mirroring the thrown `SemanticError`);
* `TempFactory`, `TypeContext` counters, scope stacks and the loop-depth
  counter are fields of the explicit state records.
Functions that the C++ realises with unbounded loops over the (finite) heap
(`Type::actual`, the phase-3 cycle chase) take explicit fuel; the C++ loops
terminate in every run the analyzer can reach (phase 3 throws before a cyclic
chain is ever chased by `actual`), and the fuel chosen dominates those runs.
-/

set_option linter.unusedVariables false

namespace Tiger

/-! ### A state + error monad (the C++ visitors mutate members and throw `SemanticError`) -/

def TigerM (σ : Type) (α : Type) := σ → Except String (α × σ)

instance (σ : Type) : Monad (TigerM σ) where
  pure a := fun s => .ok (a, s)
  bind x f := fun s => match x s with
    | .error e => .error e
    | .ok (a, s1) => f a s1

def throwErr {σ α : Type} (msg : String) : TigerM σ α := fun _ => .error msg

def getS {σ : Type} : TigerM σ σ := fun s => .ok (s, s)

def setS {σ : Type} (s : σ) : TigerM σ Unit := fun _ => .ok ((), s)

def modifyS {σ : Type} (f : σ → σ) : TigerM σ Unit := fun s => .ok ((), f s)

/-! ### The AST (include/ast/ast.hpp)

`bool escape` fields (`VarDecl::escape`, `ForExpr::escape`, `Field::escape`)
are mutable flags written by the escape analyzer through `bool*`; each flag
is represented by the numeric label `lbl` of its AST node, and an analysis
result is the set of labels whose flag was set to `true` (all flags are
constructed `false`, see ast.hpp lines 132-135, 169-171, 315-317).
-/

inductive AstOp where
  | plus | minus | times | divide | eq | neq | lt | gt | le | ge | andOp | orOp
deriving DecidableEq, Repr

/-- ast::Type: NameType | RecordType (field list) | ArrayType. A record field
is a `Field` (name, type_id); record-field escape flags are never consulted. -/
inductive AstType where
  | nameT (name : String)
  | recordT (fields : List (String × String))
  | arrayT (element_type : String)
deriving DecidableEq, Repr

/-- ast::Field, as used for function parameters (name, type_id, escape flag label). -/
structure Param where
  lbl : Nat
  name : String
  type_id : String
deriving DecidableEq, Repr

mutual

/-- ast::Expr. `VarExpr`'s three `var_kind`s become three constructors. -/
inductive Expr where
  | varSimple (name : String)
  | varField (obj : Expr) (name : String)
  | varSubscript (obj : Expr) (index : Expr)
  | nilE
  | intE (value : Int)
  | stringE (value : String)
  | callE (func : String) (args : List Expr)
  | opE (oper : AstOp) (left right : Expr)
  | recordE (type_id : String) (fields : List (String × Expr))
  | arrayE (type_id : String) (size init : Expr)
  | assignE (lhs : Expr) (rhs : Expr)
  | ifE (test then_clause : Expr) (else_clause : Option Expr)
  | whileE (test body : Expr)
  | forE (lbl : Nat) (var : String) (lo hi body : Expr)
  | breakE
  | letE (decls : List Decl) (body : List Expr)
  | seqE (exprs : List Expr)

/-- ast::Decl. -/
inductive Decl where
  | typeD (name : String) (ty : AstType)
  | varD (lbl : Nat) (name : String) (type_id : String) (init : Expr)
  | funD (name : String) (params : List Param) (result_type : String) (body : Expr)

end

namespace Decl

/-- Decl::isTypeDecl. -/
def isTypeDecl : Decl → Bool
  | .typeD _ _ => true
  | _ => false

/-- Decl::isFunctionDecl. -/
def isFunctionDecl : Decl → Bool
  | .funD _ _ _ _ => true
  | _ => false

end Decl

/-! ### The semantic type system (include/semantic/types.hpp, src/semantic/types.cpp)

Every `std::make_shared<...Type>` allocation appends an entry to a
`TypeHeap`; a `TypePtr` is the index of its entry, so C++ pointer equality
is index equality.  `NameType::bind` updates the entry in place.
-/

inductive SemType where
  | intT
  | stringT
  | nilT
  | voidT
  | recordT (fields : List (String × Nat)) (id : Nat)
  | arrayT (elem : Nat) (id : Nat)
  | nameT (name : String) (binding : Option Nat)
deriving DecidableEq, Repr

abbrev TypeHeap := List SemType

/-- Dereference a TypePtr.  All indices the analyzer produces are in range;
the default is arbitrary. -/
def heapGet (h : TypeHeap) (i : Nat) : SemType := h.getD i .voidT

def SemType.isRecordK : SemType → Bool
  | .recordT _ _ => true
  | _ => false

def SemType.isArrayK : SemType → Bool
  | .arrayT _ _ => true
  | _ => false

def SemType.isNameK : SemType → Bool
  | .nameT _ _ => true
  | _ => false

def SemType.isNilK : SemType → Bool
  | .nilT => true
  | _ => false

def SemType.isIntK : SemType → Bool
  | .intT => true
  | _ => false

def SemType.isVoidK : SemType → Bool
  | .voidT => true
  | _ => false

/-- `Type::actual` / `NameType::actual` (types.hpp lines 66, 190-200): follow
`NameType` bindings while the current node is a bound `NameType`; a non-name
or an unbound name stops the walk.  The C++ `while` has no step bound and
would diverge on a cyclic bound chain (phase 3 of `processTypeDeclarations`
errors out before such a heap can be consulted); `h.length + 1` steps
dominate every terminating C++ run, since each step visits a distinct heap
entry there. -/
def actualAux (h : TypeHeap) : Nat → Nat → Nat
  | 0, i => i
  | fuel + 1, i =>
    match heapGet h i with
    | .nameT _ (some j) => actualAux h fuel j
    | _ => i

def actual (h : TypeHeap) (i : Nat) : Nat := actualAux h (h.length + 1) i

/-- The id stored in a record/array entry (for the `static_cast` reads in
`RecordType::equals` / `ArrayType::equals`). -/
def heapId (h : TypeHeap) (i : Nat) : Nat :=
  match heapGet h i with
  | .recordT _ id => id
  | .arrayT _ id => id
  | _ => 0

/-- `Type::equals` with its virtual dispatch (types.cpp 125-129 default;
types.hpp 136-140 `RecordType::equals`, 167-170 `ArrayType::equals`,
203-207 `NameType::equals`).  Dispatch is on the dynamic type of the left
operand:
* default (`int/string/nil/void`): `actual() == other->actual()` (identity);
* record: `other` of raw kind NIL is equal; raw kind ≠ RECORD unequal;
  otherwise compare ids (note: the *raw* kind of `other` is tested, a
  `NameType` bound to a record on the right is not unwrapped here);
* array: raw kind ≠ ARRAY unequal, otherwise compare ids (no NIL case);
* name: resolve the left side; an unresolved name equals nothing; otherwise
  re-dispatch on the resolved left against `other->actual()`.
The name case recurses at most once (its result is a non-name or an unbound
name), so fuel 2 computes exactly the C++ result. -/
def equalsAux (h : TypeHeap) : Nat → Nat → Nat → Bool
  | 0, _, _ => false
  | fuel + 1, l, r =>
    match heapGet h l with
    | .nameT _ _ =>
      let a := actual h l
      if a = l then false else equalsAux h fuel a (actual h r)
    | .recordT _ id =>
      match heapGet h r with
      | .nilT => true
      | .recordT _ _ => id = heapId h (actual h r)
      | _ => false
    | .arrayT _ id =>
      match heapGet h r with
      | .arrayT _ _ => id = heapId h (actual h r)
      | _ => false
    | _ => actual h l = actual h r

def equals (h : TypeHeap) (l r : Nat) : Bool := equalsAux h 2 l r

/-- `isCompatible` (types.cpp 131-143): resolve both sides, allow Nil against
a record in either direction, otherwise dispatch `a1->equals(a2)`. -/
def isCompatible (h : TypeHeap) (t1 t2 : Nat) : Bool :=
  let a1 := actual h t1
  let a2 := actual h t2
  if ((heapGet h a1).isNilK && (heapGet h a2).isRecordK) ||
     ((heapGet h a2).isNilK && (heapGet h a1).isRecordK) then true
  else equalsAux h 2 a1 a2

/-- `RecordType::getFieldType`: first field with the given name. -/
def getFieldType (fields : List (String × Nat)) (name : String) : Option Nat :=
  match fields with
  | [] => none
  | (n, t) :: rest => if n = name then some t else getFieldType rest name

/-- `Type::asRecord` (types.cpp 20-25): a raw record resolves to itself; a
name whose `actual` is a record resolves to that record; anything else is
not a record. -/
def asRecordIdx (h : TypeHeap) (i : Nat) : Option Nat :=
  if (heapGet h i).isRecordK then some (actual h i)
  else if (heapGet h i).isNameK && (heapGet h (actual h i)).isRecordK then some (actual h i)
  else none

/-- `Type::asArray` (types.cpp 27-32). -/
def asArrayIdx (h : TypeHeap) (i : Nat) : Option Nat :=
  if (heapGet h i).isArrayK then some (actual h i)
  else if (heapGet h i).isNameK && (heapGet h (actual h i)).isArrayK then some (actual h i)
  else none

/-! ### Environment and symbol tables (include/semantic/environment.hpp,
include/semantic/symbol_table.hpp)

A `SymbolTable` scope is an association list; `enter` prepends (the C++
`scopes_.back()[name] = value` overwrite is first-match-wins on lookup).
The head of the scope list is the innermost scope (C++ `scopes_.back()`).
-/

structure FuncEntry where
  paramTypes : List Nat
  returnType : Nat
deriving DecidableEq, Repr

/-- `ValueEntry`: variables and functions share the value namespace. -/
inductive VEntry where
  | varE (ty : Nat) (readOnly : Bool)
  | funcE (fe : FuncEntry)
deriving DecidableEq, Repr

abbrev Scope (α : Type) := List (String × α)

def scopeFind {α : Type} : Scope α → String → Option α
  | [], _ => none
  | (n, v) :: rest, name => if n = name then some v else scopeFind rest name

/-- `SymbolTable::lookup`: innermost scope first. -/
def tableLookup {α : Type} : List (Scope α) → String → Option α
  | [], _ => none
  | sc :: rest, name =>
    match scopeFind sc name with
    | some v => some v
    | none => tableLookup rest name

/-- `SymbolTable::enter` into the current (innermost) scope. -/
def tableEnter {α : Type} (scopes : List (Scope α)) (name : String) (v : α) : List (Scope α) :=
  match scopes with
  | [] => []
  | sc :: rest => ((name, v) :: sc) :: rest

/-- The semantic analyzer state: the type heap (all `shared_ptr<Type>`
allocations), both namespaces, the loop-depth counter, the `TypeContext`
id counters and the current function return type. -/
structure SemState where
  heap : TypeHeap
  typeEnv : List (Scope Nat)
  valueEnv : List (Scope VEntry)
  loopDepth : Int
  nextRecordId : Nat
  nextArrayId : Nat
  currentReturnType : Option Nat
deriving Repr

abbrev SemM (α : Type) := TigerM SemState α

/-- The shared primitive instances created by the `TypeContext` constructor. -/
def intIdx : Nat := 0
def stringIdx : Nat := 1
def nilIdx : Nat := 2
def voidIdx : Nat := 3

/-- Allocate a fresh heap cell (a `std::make_shared<...Type>`). -/
def allocType (t : SemType) : SemM Nat := fun s =>
  .ok (s.heap.length, { s with heap := s.heap ++ [t] })

/-- `TypeContext::createNameType`. -/
def createNameType (name : String) : SemM Nat := allocType (.nameT name none)

/-- `TypeContext::createRecordType`: a fresh empty record with the next id. -/
def createRecordType : SemM Nat := fun s =>
  .ok (s.heap.length, { s with heap := s.heap ++ [.recordT [] s.nextRecordId],
                               nextRecordId := s.nextRecordId + 1 })

/-- `TypeContext::createArrayType`. -/
def createArrayType (elem : Nat) : SemM Nat := fun s =>
  .ok (s.heap.length, { s with heap := s.heap ++ [.arrayT elem s.nextArrayId],
                               nextArrayId := s.nextArrayId + 1 })

/-- `RecordType::addField` (mutates the record entry in place). -/
def addField (i : Nat) (name : String) (ty : Nat) : SemM Unit := fun s =>
  let updated : SemType :=
    match heapGet s.heap i with
    | .recordT fields id => .recordT (fields ++ [(name, ty)]) id
    | t => t
  .ok ((), { s with heap := s.heap.set i updated })

/-- `NameType::bind` (mutates the binding in place). -/
def bindName (i : Nat) (target : Nat) : SemM Unit := fun s =>
  let updated : SemType :=
    match heapGet s.heap i with
    | .nameT n _ => .nameT n (some target)
    | t => t
  .ok ((), { s with heap := s.heap.set i updated })

def enterType (name : String) (ty : Nat) : SemM Unit :=
  modifyS fun s => { s with typeEnv := tableEnter s.typeEnv name ty }

def lookupType (name : String) : SemM (Option Nat) := fun s =>
  .ok (tableLookup s.typeEnv name, s)

def enterVar (name : String) (ty : Nat) (readOnly : Bool) : SemM Unit :=
  modifyS fun s => { s with valueEnv := tableEnter s.valueEnv name (.varE ty readOnly) }

def enterFunc (name : String) (params : List Nat) (ret : Nat) : SemM Unit :=
  modifyS fun s => { s with valueEnv := tableEnter s.valueEnv name (.funcE ⟨params, ret⟩) }

/-- `Environment::lookupVar`: a value entry that is a variable. -/
def lookupVar (name : String) : SemM (Option (Nat × Bool)) := fun s =>
  .ok ((match tableLookup s.valueEnv name with
        | some (.varE ty ro) => some (ty, ro)
        | _ => none), s)

/-- `Environment::lookupFunc`: a value entry that is a function. -/
def lookupFunc (name : String) : SemM (Option FuncEntry) := fun s =>
  .ok ((match tableLookup s.valueEnv name with
        | some (.funcE fe) => some fe
        | _ => none), s)

def beginScopeS : SemM Unit :=
  modifyS fun s => { s with typeEnv := [] :: s.typeEnv, valueEnv := [] :: s.valueEnv }

def endScopeS : SemM Unit :=
  modifyS fun s => { s with typeEnv := s.typeEnv.tail, valueEnv := s.valueEnv.tail }

def enterLoopS : SemM Unit := modifyS fun s => { s with loopDepth := s.loopDepth + 1 }

def exitLoopS : SemM Unit := modifyS fun s => { s with loopDepth := s.loopDepth - 1 }

/-- `Environment::inLoop`. -/
def inLoop (s : SemState) : Bool := s.loopDepth > 0

/-- `SemanticAnalyzer::checkTypeEquals` (semantic_analyzer.cpp 20-27). -/
def checkTypeEquals (expected actualT : Nat) (errorMsg : String) : SemM Nat := do
  let s ← getS
  if !(equals s.heap expected actualT) then throwErr errorMsg
  else pure expected

/-- `SemanticAnalyzer::checkAssignable` (semantic_analyzer.cpp 29-42): like
`checkTypeEquals` but a raw-Nil expression may be assigned to a raw-record
variable type. -/
def checkAssignable (varType exprType : Nat) (varName : String) : SemM Nat := do
  let s ← getS
  if !(equals s.heap varType exprType) then
    if (heapGet s.heap exprType).isNilK && (heapGet s.heap varType).isRecordK then pure varType
    else throwErr ("Type mismatch in assignment to '" ++ varName ++ "'")
  else pure varType

/-- Field-translation loop inside `translateType`'s record case. -/
def translateRecordFields (recIdx : Nat) : List (String × String) → SemM Unit
  | [] => pure ()
  | (fname, ftid) :: rest => do
    let ft? ← lookupType ftid
    match ft? with
    | none => throwErr ("Unknown field type in record: " ++ ftid)
    | some ft => do
      addField recIdx fname ft
      translateRecordFields recIdx rest

/-- `SemanticAnalyzer::translateType` (semantic_analyzer.cpp 44-85). -/
def translateType : AstType → SemM Nat
  | .nameT n => do
    let t? ← lookupType n
    match t? with
    | none => throwErr ("Undefined type: " ++ n)
    | some t => pure t
  | .recordT fields => do
    let recIdx ← createRecordType
    translateRecordFields recIdx fields
    pure recIdx
  | .arrayT elem => do
    let et? ← lookupType elem
    match et? with
    | none => throwErr ("Undefined array element type: " ++ elem)
    | some et => createArrayType et

/-! ### Type-declaration batches (semantic_analyzer.cpp 449-503) -/

/-- Phase 1: register a fresh `NameType` for every declaration of the batch. -/
def phase1Types : List (String × AstType) → SemM Unit
  | [] => pure ()
  | (name, _) :: rest => do
    let i ← createNameType name
    enterType name i
    phase1Types rest

/-- Phase 2: translate every right-hand side and bind it into the batch's
`NameType` (skipped when the environment no longer holds a name type). -/
def phase2Types : List (String × AstType) → SemM Unit
  | [] => pure ()
  | (name, astTy) :: rest => do
    let nt? ← lookupType name
    (match nt? with
     | some i => do
       let s ← getS
       if (heapGet s.heap i).isNameK then do
         let a ← translateType astTy
         bindName i a
       else pure ()
     | none => pure ())
    phase2Types rest

/-- The phase-3 `while (nameType != nullptr)` chase for one declaration:
follow the binding while it is another `NameType`, accumulating the visited
names in `deps` (set) and `cycle` (orderly, for the message); a name already
in `deps` is the non-productive cycle error.  The C++ loop is unbounded; each
successful step adds a fresh name that labels some heap entry, so
`h.length + 1` steps dominate it (`chaseCycle_spec` below makes this exact). -/
def chaseCycle (h : TypeHeap) (startName : String) :
    Nat → List String → List String → Nat → Option String
  | 0, _, _, _ => none
  | fuel + 1, deps, cycle, i =>
    match heapGet h i with
    | .nameT _ (some b) =>
      match heapGet h b with
      | .nameT depName _ =>
        let cycle2 := cycle ++ [depName]
        if depName ∈ deps then
          some ("Find a cycle of type declaration '" ++ startName ++ "': " ++
            cycle2.foldl (fun acc dep => acc ++ " -> '" ++ dep ++ "'") "")
        else chaseCycle h startName fuel (depName :: deps) cycle2 b
      | _ => none
    | _ => none

/-- Phase 3 driver: chase every first occurrence of a declared name whose
environment entry is (still) a `NameType`. -/
def phase3Types (h : TypeHeap) (lookupT : String → Option Nat) :
    List String → List (String × AstType) → Option String
  | _, [] => none
  | checkedNames, (name, _) :: rest =>
    if name ∈ checkedNames then phase3Types h lookupT checkedNames rest
    else
      let checked2 := name :: checkedNames
      match lookupT name with
      | some i =>
        if (heapGet h i).isNameK then
          match chaseCycle h name (h.length + 1) [name] [] i with
          | some e => some e
          | none => phase3Types h lookupT checked2 rest
        else phase3Types h lookupT checked2 rest
      | none => phase3Types h lookupT checked2 rest

/-- `SemanticAnalyzer::processTypeDeclarations` glued together. -/
def processTypeDeclarations (typeDecls : List (String × AstType)) : SemM Unit := do
  phase1Types typeDecls
  phase2Types typeDecls
  let s ← getS
  match phase3Types s.heap (tableLookup s.typeEnv) [] typeDecls with
  | some msg => throwErr msg
  | none => pure ()

/-! ### Function-declaration batches (semantic_analyzer.cpp 506-566) -/

/-- A collected `ast::FunctionDecl`. -/
structure FunDecl where
  name : String
  params : List Param
  result_type : String
  body : Expr

/-- Parameter-type translation of phase 1. -/
def lookupParamTypes : List Param → SemM (List Nat)
  | [] => pure []
  | p :: ps => do
    let t? ← lookupType p.type_id
    match t? with
    | none => throwErr ("Undefined parameter type: " ++ p.type_id)
    | some t => do
      let rest ← lookupParamTypes ps
      pure (t :: rest)

/-- Phase 1: enter all function headers (permitting mutual recursion). -/
def funPhase1 : List FunDecl → SemM Unit
  | [] => pure ()
  | fd :: rest => do
    let paramTypes ← lookupParamTypes fd.params
    let returnType ←
      (if fd.result_type = "" then pure voidIdx
       else do
         let r? ← lookupType fd.result_type
         match r? with
         | none => throwErr ("Undefined return type: " ++ fd.result_type)
         | some r => pure r)
    enterFunc fd.name paramTypes returnType
    funPhase1 rest

/-- Parameter binding of phase 2 (`paramTypes[i]` for each `params[i]`; the
C++ reads past the end when a duplicate header shrank the entry — undefined
behaviour there, an arbitrary type here). -/
def enterParams : List Param → List Nat → SemM Unit
  | [], _ => pure ()
  | p :: ps, t :: ts => do
    enterVar p.name t false
    enterParams ps ts
  | p :: ps, [] => do
    enterVar p.name intIdx false
    enterParams ps []

/-- The declaration-group collection of `visit(ast::LetExpr*)`
(semantic_analyzer.cpp 402-418): panning forward, consecutive type and
function declarations join the current pair of groups; the first variable
declaration stops the collection. -/
def collectGroups : List Decl → (List (String × AstType) × List FunDecl × List Decl)
  | [] => ([], [], [])
  | .typeD n t :: rest =>
    let (tg, fg, r) := collectGroups rest
    ((n, t) :: tg, fg, r)
  | .funD n ps rt b :: rest =>
    let (tg, fg, r) := collectGroups rest
    (tg, ⟨n, ps, rt, b⟩ :: fg, r)
  | .varD l n tid i :: rest => ([], [], .varD l n tid i :: rest)

mutual

/-- `SemanticAnalyzer`'s expression visitors (semantic_analyzer.cpp), with
explicit fuel (decremented at every call; the C++ recursion is structural
and any fuel exceeding the program size gives its result). -/
def visitExpr : Nat → Expr → SemM Nat
  | 0, _ => throwErr "out of fuel"
  | fuel + 1, e =>
    match e with
    | .varSimple name => do
      let v? ← lookupVar name
      match v? with
      | some (ty, _) => pure ty
      | none => do
        let f? ← lookupFunc name
        match f? with
        | some _ => throwErr ("'" ++ name ++ "' is a function, not a variable")
        | none => throwErr ("Undefined variable: " ++ name)
    | .varField obj fname => do
      let varType ← visitExpr fuel obj
      let s ← getS
      match asRecordIdx s.heap varType with
      | none => throwErr "Field access on non-record type"
      | some rIdx =>
        match heapGet s.heap rIdx with
        | .recordT fields _ =>
          match getFieldType fields fname with
          | none => throwErr ("Record has no field named '" ++ fname ++ "'")
          | some ft => pure ft
        | _ => throwErr "Field access on non-record type"
    | .varSubscript obj index => do
      let varType ← visitExpr fuel obj
      let s ← getS
      if !(heapGet s.heap varType).isArrayK then
        throwErr "Array subscript on non-array type"
      else do
        let indexType ← visitExpr fuel index
        let _ ← checkTypeEquals intIdx indexType "Array index must be integer"
        let s2 ← getS
        match heapGet s2.heap (actual s2.heap varType) with
        | .arrayT elem _ => pure elem
        | _ => throwErr "Array subscript on non-array type"
    | .nilE => pure nilIdx
    | .intE _ => pure intIdx
    | .stringE _ => pure stringIdx
    | .callE func args => do
      let f? ← lookupFunc func
      match f? with
      | none => do
        let v? ← lookupVar func
        match v? with
        | some _ => throwErr ("'" ++ func ++ "' is a variable, not a function")
        | none => throwErr ("Undefined function: " ++ func)
      | some fe => do
        if args.length ≠ fe.paramTypes.length then
          throwErr ("Function '" ++ func ++ "' called with wrong number of arguments")
        else do
          checkArgs fuel func args fe.paramTypes
          pure fe.returnType
    | .opE oper left right => do
      let leftType ← visitExpr fuel left
      let rightType ← visitExpr fuel right
      match oper with
      | .plus | .minus | .times | .divide => do
        let _ ← checkTypeEquals intIdx leftType "Left operand of arithmetic operator must be int"
        let _ ← checkTypeEquals intIdx rightType "Right operand of arithmetic operator must be int"
        pure intIdx
      | .eq | .neq | .lt | .gt | .le | .ge => do
        let _ ← checkTypeEquals leftType rightType "Comparison operands must have the same type"
        pure intIdx
      | .andOp | .orOp => do
        let _ ← checkTypeEquals intIdx leftType "Left operand of logical operator must be int"
        let _ ← checkTypeEquals intIdx rightType "Right operand of logical operator must be int"
        pure intIdx
    | .recordE tid fields => do
      let t? ← lookupType tid
      match t? with
      | none => throwErr ("Undefined type: " ++ tid)
      | some ty => do
        let s ← getS
        match asRecordIdx s.heap ty with
        | none => throwErr ("Type '" ++ tid ++ "' is not a record type")
        | some rIdx =>
          match heapGet s.heap rIdx with
          | .recordT recordFields _ => do
            if fields.length ≠ recordFields.length then
              throwErr "Record creation with wrong number of fields"
            else do
              checkRecordFields fuel fields recordFields
              pure ty
          | _ => throwErr ("Type '" ++ tid ++ "' is not a record type")
    | .arrayE tid size init => do
      let t? ← lookupType tid
      match t? with
      | none => throwErr ("Undefined type: " ++ tid)
      | some ty => do
        let s ← getS
        match asArrayIdx s.heap ty with
        | none => throwErr ("Type '" ++ tid ++ "' is not an array type")
        | some aIdx => do
          let elemType := (match heapGet s.heap aIdx with | .arrayT e _ => e | _ => 0)
          let sizeType ← visitExpr fuel size
          let _ ← checkTypeEquals intIdx sizeType "Array size must be integer"
          let initType ← visitExpr fuel init
          let _ ← checkAssignable elemType initType "array initialization"
          pure ty
    | .assignE lhs rhs => do
      let varType ← visitExpr fuel lhs
      let exprType ← visitExpr fuel rhs
      (match lhs with
       | .varSimple n => do
         let v? ← lookupVar n
         match v? with
         | some (_, true) => throwErr ("Cannot assign to loop variable '" ++ n ++ "'")
         | _ => pure ()
       | _ => pure ())
      let _ ← checkAssignable varType exprType "assignment"
      pure voidIdx
    | .ifE test then_clause else_clause => do
      let testType ← visitExpr fuel test
      let _ ← checkTypeEquals intIdx testType "If condition must be integer"
      let thenType ← visitExpr fuel then_clause
      match else_clause with
      | some els => do
        let elseType ← visitExpr fuel els
        let _ ← checkTypeEquals thenType elseType "If-then-else branches must have the same type"
        pure thenType
      | none => do
        let _ ← checkTypeEquals voidIdx thenType "If-then without else must produce no value"
        pure voidIdx
    | .whileE test body => do
      let testType ← visitExpr fuel test
      let _ ← checkTypeEquals intIdx testType "While condition must be integer"
      enterLoopS
      let bodyType ← visitExpr fuel body
      let _ ← checkTypeEquals voidIdx bodyType "While loop body must produce no value"
      exitLoopS
      pure voidIdx
    | .forE _ var lo hi body => do
      let loType ← visitExpr fuel lo
      let hiType ← visitExpr fuel hi
      let _ ← checkTypeEquals intIdx loType "For loop lower bound must be int"
      let _ ← checkTypeEquals intIdx hiType "For loop upper bound must be int"
      beginScopeS
      enterVar var intIdx true
      enterLoopS
      let _ ← visitExpr fuel body
      exitLoopS
      endScopeS
      pure voidIdx
    | .breakE => do
      let s ← getS
      if !(inLoop s) then throwErr "break statement must be inside a loop"
      else pure voidIdx
    | .letE decls body => do
      beginScopeS
      processDecls fuel decls
      let lastType ← visitExprList fuel body voidIdx
      endScopeS
      pure lastType
    | .seqE exprs => visitExprList fuel exprs voidIdx

/-- The body loop of `visit(LetExpr*)` / `visit(SeqExpr*)`: type of the last
expression, `void` for an empty list. -/
def visitExprList : Nat → List Expr → Nat → SemM Nat
  | 0, _, _ => throwErr "out of fuel"
  | _ + 1, [], last => pure last
  | fuel + 1, e :: rest, _ => do
    let t ← visitExpr fuel e
    visitExprList fuel rest t

/-- Argument checking loop of `visit(CallExpr*)`. -/
def checkArgs : Nat → String → List Expr → List Nat → SemM Unit
  | 0, _, _, _ => throwErr "out of fuel"
  | _ + 1, _, [], _ => pure ()
  | _ + 1, _, _ :: _, [] => pure ()
  | fuel + 1, func, a :: as_, p :: ps => do
    let argType ← visitExpr fuel a
    let _ ← checkTypeEquals p argType ("Argument type mismatch in call to '" ++ func ++ "'")
    checkArgs fuel func as_ ps

/-- Field checking loop of `visit(RecordExpr*)` (names must match in order). -/
def checkRecordFields : Nat → List (String × Expr) → List (String × Nat) → SemM Unit
  | 0, _, _ => throwErr "out of fuel"
  | _ + 1, [], _ => pure ()
  | _ + 1, _ :: _, [] => pure ()
  | fuel + 1, (fn, fe) :: fs, (rn, rt) :: rs => do
    if fn ≠ rn then throwErr ("Field '" ++ fn ++ "' not found or wrong order in record type")
    else do
      let fieldType ← visitExpr fuel fe
      let _ ← checkTypeEquals rt fieldType
        ("Type mismatch for field '" ++ fn ++ "' in record creation")
      checkRecordFields fuel fs rs

/-- `SemanticAnalyzer::visit(VarDecl*)` (semantic_analyzer.cpp 580-598); the
type- and function-declaration visitors are no-ops. -/
def visitDecl : Nat → Decl → SemM Unit
  | 0, _ => throwErr "out of fuel"
  | _ + 1, .typeD _ _ => pure ()
  | _ + 1, .funD _ _ _ _ => pure ()
  | fuel + 1, .varD _ name tid init => do
    let initType ← visitExpr fuel init
    if tid = "" then enterVar name initType false
    else do
      let vt? ← lookupType tid
      match vt? with
      | none => throwErr ("Undefined type in variable declaration: " ++ tid)
      | some varType => do
        let _ ← checkAssignable varType initType name
        enterVar name varType false

/-- The inner loop of `visit(LetExpr*)` that processes non-type, non-function
declarations until the next type/function declaration starts a new group. -/
def processVarRun : Nat → List Decl → SemM (List Decl)
  | 0, _ => throwErr "out of fuel"
  | _ + 1, [] => pure []
  | fuel + 1, d :: rest =>
    if d.isTypeDecl || d.isFunctionDecl then pure (d :: rest)
    else do
      visitDecl fuel d
      processVarRun fuel rest

/-- Phase 2 of `processFunctionDeclarations`: analyze every body with the
parameters in scope and the current return type set. -/
def funPhase2 : Nat → List FunDecl → SemM Unit
  | 0, _ => throwErr "out of fuel"
  | _ + 1, [] => pure ()
  | fuel + 1, fd :: rest => do
    let entry? ← lookupFunc fd.name
    (match entry? with
     | none => pure ()
     | some entry => do
       beginScopeS
       let s ← getS
       let saved := s.currentReturnType
       modifyS (fun st => { st with currentReturnType := some entry.returnType })
       enterParams fd.params entry.paramTypes
       let bodyType ← visitExpr fuel fd.body
       let s2 ← getS
       let cur := s2.currentReturnType.getD voidIdx
       if !(heapGet s2.heap cur).isVoidK then do
         let _ ← checkTypeEquals cur bodyType "Function body return type mismatch"
         modifyS (fun st => { st with currentReturnType := saved })
         endScopeS
       else do
         modifyS (fun st => { st with currentReturnType := saved })
         endScopeS)
    funPhase2 fuel rest

/-- `SemanticAnalyzer::processFunctionDeclarations`. -/
def processFunctionDeclarations : Nat → List FunDecl → SemM Unit
  | 0, _ => throwErr "out of fuel"
  | fuel + 1, funcDecls => do
    funPhase1 funcDecls
    funPhase2 fuel funcDecls

/-- The declaration-processing loop of `visit(LetExpr*)` (semantic_analyzer.cpp
400-437): collect the consecutive type/function groups, process them (types
first), then process variable declarations until the next group. -/
def processDecls : Nat → List Decl → SemM Unit
  | 0, _ => throwErr "out of fuel"
  | _ + 1, [] => pure ()
  | fuel + 1, d :: ds => do
    let (typeGroup, funcGroup, rest) := collectGroups (d :: ds)
    if !typeGroup.isEmpty then processTypeDeclarations typeGroup
    if !funcGroup.isEmpty then processFunctionDeclarations fuel funcGroup
    let rest2 ← processVarRun fuel rest
    processDecls fuel rest2

end

/-! ### The initial environment (`Environment::initBuiltins`) and entry point -/

def emptySemState : SemState :=
  { heap := [.intT, .stringT, .nilT, .voidT]
    typeEnv := [[]]
    valueEnv := [[]]
    loopDepth := 0
    nextRecordId := 0
    nextArrayId := 0
    currentReturnType := none }

def initBuiltinsM : SemM Unit := do
  enterType "int" intIdx
  enterType "string" stringIdx
  enterFunc "print" [stringIdx] voidIdx
  enterFunc "printi" [intIdx] voidIdx
  enterFunc "flush" [] voidIdx
  enterFunc "getchar" [] stringIdx
  enterFunc "ord" [stringIdx] intIdx
  enterFunc "chr" [intIdx] stringIdx
  enterFunc "size" [stringIdx] intIdx
  enterFunc "substring" [stringIdx, intIdx, intIdx] stringIdx
  enterFunc "concat" [stringIdx, stringIdx] stringIdx
  enterFunc "not" [intIdx] intIdx
  enterFunc "exit" [intIdx] voidIdx

def initialSemState : SemState :=
  match initBuiltinsM emptySemState with
  | .ok (_, s) => s
  | .error _ => emptySemState

/-- `SemanticAnalyzer::analyze`: the type of the program, or the first
semantic error. -/
def semAnalyze (fuel : Nat) (program : Expr) : Except String Nat :=
  (visitExpr fuel program initialSemState).map Prod.fst

/-! ### Escape analysis (src/translate/escape.cpp)

`EscapeAnalyzer` keeps a scope stack mapping names to `(depth, bool*)`; we
record the flag label instead of the pointer and collect the labels set to
`true` in `flags`.  `depth_` is incremented only around function bodies. -/

structure EscState where
  envStack : List (Scope (Nat × Nat))
  depth : Nat
  flags : List Nat
deriving Repr

/-- `EscapeAnalyzer::beginScope`. -/
def beginScopeE (s : EscState) : EscState := { s with envStack := [] :: s.envStack }

/-- `EscapeAnalyzer::endScope`. -/
def endScopeE (s : EscState) : EscState := { s with envStack := s.envStack.tail }

/-- `EscapeAnalyzer::enterVar` (records the current depth and the flag). -/
def enterVarE (name : String) (lbl : Nat) (s : EscState) : EscState :=
  { s with envStack := tableEnter s.envStack name (s.depth, lbl) }

/-- `EscapeAnalyzer::checkEscape`: find the innermost entry for the name;
if the current depth is strictly greater than the entry's, set its flag. -/
def checkEscape (name : String) (s : EscState) : EscState :=
  match tableLookup s.envStack name with
  | some (dd, l) => if s.depth > dd then { s with flags := l :: s.flags } else s
  | none => s

/-- Parameters are entered in order into the function's fresh scope. -/
def enterParamsE (ps : List Param) (s : EscState) : EscState :=
  ps.foldl (fun acc p => enterVarE p.name p.lbl acc) s

mutual

/-- The `EscapeAnalyzer` visitors (escape.cpp 37-131). -/
def escExpr : Expr → EscState → EscState
  | .varSimple name, s => checkEscape name s
  | .varField obj _, s => escExpr obj s
  | .varSubscript obj index, s => escExpr index (escExpr obj s)
  | .nilE, s => s
  | .intE _, s => s
  | .stringE _, s => s
  | .callE _ args, s => escList args s
  | .opE _ left right, s => escExpr right (escExpr left s)
  | .recordE _ fields, s => escFields fields s
  | .arrayE _ size init, s => escExpr init (escExpr size s)
  | .assignE lhs rhs, s => escExpr rhs (escExpr lhs s)
  | .ifE test then_clause else_clause, s =>
    (match else_clause with
     | some els => escExpr els (escExpr then_clause (escExpr test s))
     | none => escExpr then_clause (escExpr test s))
  | .whileE test body, s => escExpr body (escExpr test s)
  | .forE lbl var lo hi body, s =>
    endScopeE (escExpr body (escExpr hi (escExpr lo
      (enterVarE var lbl (beginScopeE s)))))
  | .breakE, s => s
  | .letE decls body, s => endScopeE (escList body (escDecls decls (beginScopeE s)))
  | .seqE exprs, s => escList exprs s

def escList : List Expr → EscState → EscState
  | [], s => s
  | e :: rest, s => escList rest (escExpr e s)

def escFields : List (String × Expr) → EscState → EscState
  | [], s => s
  | (_, e) :: rest, s => escFields rest (escExpr e s)

def escDecls : List Decl → EscState → EscState
  | [], s => s
  | d :: rest, s => escDecls rest (escDecl d s)

/-- Declaration visitors: a variable declaration visits its initializer and
then binds its name; a function declaration analyzes its body one depth
deeper with the parameters in a fresh scope. -/
def escDecl : Decl → EscState → EscState
  | .typeD _ _, s => s
  | .varD lbl name _ init, s => enterVarE name lbl (escExpr init s)
  | .funD _ params _ body, s =>
    let s1 := { s with depth := s.depth + 1 }
    let s5 := endScopeE (escExpr body (enterParamsE params (beginScopeE s1)))
    { s5 with depth := s5.depth - 1 }

end

/-- `EscapeAnalyzer::analyze` / `findEscapes`: run on an empty stack at depth
0 inside one scope; the escaping labels are the result. -/
def escAnalyze (e : Expr) : List Nat :=
  (endScopeE (escExpr e (beginScopeE ⟨[], 0, []⟩))).flags

/-! #### The specification's view of escaping

Modelled from the spec: the escape bit of a declaration is true iff some
occurrence of its name (resolving to that declaration under the binding
structure) appears at a strictly greater function-nesting depth than the
declaration, where only function-body entry increments the depth.  The
functions below collect exactly those labels, with a flat functional
environment instead of the analyzer's scope stack and flag writes. -/

abbrev EscEnv := List (String × (Nat × Nat))

def specParams (ps : List Param) (d : Nat) (ρ : EscEnv) : EscEnv :=
  ps.foldl (fun acc p => (p.name, (d, p.lbl)) :: acc) ρ

mutual

/-- Labels of declarations referenced from strictly below their depth. -/
def specExpr : Expr → EscEnv → Nat → List Nat
  | .varSimple name, ρ, d =>
    (match scopeFind ρ name with
     | some (dd, l) => if d > dd then [l] else []
     | none => [])
  | .varField obj _, ρ, d => specExpr obj ρ d
  | .varSubscript obj index, ρ, d => specExpr obj ρ d ++ specExpr index ρ d
  | .nilE, _, _ => []
  | .intE _, _, _ => []
  | .stringE _, _, _ => []
  | .callE _ args, ρ, d => specListE args ρ d
  | .opE _ left right, ρ, d => specExpr left ρ d ++ specExpr right ρ d
  | .recordE _ fields, ρ, d => specFieldsE fields ρ d
  | .arrayE _ size init, ρ, d => specExpr size ρ d ++ specExpr init ρ d
  | .assignE lhs rhs, ρ, d => specExpr lhs ρ d ++ specExpr rhs ρ d
  | .ifE test then_clause else_clause, ρ, d =>
    (match else_clause with
     | some els => specExpr test ρ d ++ specExpr then_clause ρ d ++ specExpr els ρ d
     | none => specExpr test ρ d ++ specExpr then_clause ρ d)
  | .whileE test body, ρ, d => specExpr test ρ d ++ specExpr body ρ d
  | .forE lbl var lo hi body, ρ, d =>
    let ρ2 := (var, (d, lbl)) :: ρ
    specExpr lo ρ2 d ++ specExpr hi ρ2 d ++ specExpr body ρ2 d
  | .breakE, _, _ => []
  | .letE decls body, ρ, d =>
    let (adds, fl) := specDecls decls ρ d
    fl ++ specListE body (adds ++ ρ) d
  | .seqE exprs, ρ, d => specListE exprs ρ d

def specListE : List Expr → EscEnv → Nat → List Nat
  | [], _, _ => []
  | e :: rest, ρ, d => specExpr e ρ d ++ specListE rest ρ d

def specFieldsE : List (String × Expr) → EscEnv → Nat → List Nat
  | [], _, _ => []
  | (_, e) :: rest, ρ, d => specExpr e ρ d ++ specFieldsE rest ρ d

/-- Environment additions and escaping labels of a declaration list. -/
def specDecls : List Decl → EscEnv → Nat → (EscEnv × List Nat)
  | [], _, _ => ([], [])
  | d0 :: rest, ρ, d =>
    let (a1, f1) := specDecl d0 ρ d
    let (a2, f2) := specDecls rest (a1 ++ ρ) d
    (a2 ++ a1, f1 ++ f2)

def specDecl : Decl → EscEnv → Nat → (EscEnv × List Nat)
  | .typeD _ _, _, _ => ([], [])
  | .varD lbl name _ init, ρ, d => ([(name, (d, lbl))], specExpr init ρ d)
  | .funD _ params _ body, ρ, d =>
    ([], specExpr body (specParams params (d + 1) ρ) (d + 1))

end

/-- The spec-side escaping labels of a whole program. -/
def specEscapes (e : Expr) : List Nat := specExpr e [] 0

/-! ### The tree IR (include/ir/tree.hpp) and temporaries (translate/temp.hpp) -/

inductive IRBinOp where
  | plus | minus | mul | div | andB | orB | xorB | lshift | rshift | arshift
deriving DecidableEq, Repr

inductive IRRelOp where
  | eq | ne | lt | gt | le | ge | ult | ule | ugt | uge
deriving DecidableEq, Repr

/-- `translate::Label`: identified by its name string (`Label(int id)` names
itself `"L<id>"`; `operator==` compares names). -/
structure IRLabel where
  name : String
deriving DecidableEq, Repr

mutual

inductive IRExp where
  | constE (value : Int)
  | nameE (label : IRLabel)
  | tempE (t : Nat)
  | binopE (op : IRBinOp) (left right : IRExp)
  | memE (addr : IRExp)
  | callE (func : IRExp) (args : List IRExp)
  | eseqE (stm : IRStm) (exp : IRExp)

inductive IRStm where
  | moveS (dst src : IRExp)
  | expS (e : IRExp)
  | jumpS (e : IRExp) (targets : List IRLabel)
  | cjumpS (op : IRRelOp) (left right : IRExp) (trueL falseL : IRLabel)
  | seqS (first second : IRStm)
  | labelS (l : IRLabel)

end

/-- `TempFactory` (temp.hpp 46-56). -/
structure TempFactory where
  tempCounter : Nat
  labelCounter : Nat
deriving DecidableEq, Repr

def newTemp (tf : TempFactory) : Nat × TempFactory :=
  (tf.tempCounter, { tf with tempCounter := tf.tempCounter + 1 })

def newLabel (tf : TempFactory) : IRLabel × TempFactory :=
  (⟨"L" ++ toString tf.labelCounter⟩, { tf with labelCounter := tf.labelCounter + 1 })

def namedLabel (s : String) : IRLabel := ⟨s⟩

/-- The null-tolerant `SEQ(StmPtr, StmPtr)` of tree.hpp (374-378): a null
side yields the other side. -/
def seqOpt : Option IRStm → Option IRStm → Option IRStm
  | none, s2 => s2
  | some s1, none => some s1
  | some s1, some s2 => some (.seqS s1 s2)

/-- The initializer-list `SEQ({...})` of tree.hpp (379-385): left fold of the
binary `SEQ` starting from null. -/
def seqList (stms : List (Option IRStm)) : Option IRStm := stms.foldl seqOpt none

/-- `SEQ({...})` over statements known to be non-null: a left-nested spine. -/
def seqNE (s0 : IRStm) (rest : List IRStm) : IRStm :=
  rest.foldl .seqS s0

/-- The one-label `JUMP(l)` helper of tree.hpp (365-367). -/
def jumpL (l : IRLabel) : IRStm := .jumpS (.nameE l) [l]

/-! ### Translate-expression wrappers (include/ir/translate_exp.hpp)

A `CondFn` receives the true/false labels and, like the C++ lambdas that
capture `this` and use `tempFactory_` when invoked, may draw fresh names
from the factory at invocation time. -/

abbrev CondFn := IRLabel → IRLabel → TempFactory → IRStm × TempFactory

inductive TransExp where
  | ex (e : IRExp)
  | nx (s : Option IRStm)
  | cx (condFn : CondFn)

/-- `unEx` (translate_exp.hpp): `Ex` unwraps; `Nx` falls back to `CONST(0)`
(dropping its statement); `Cx` materialises the 0/1 result through fresh
labels and a fresh temp. -/
def unEx : TransExp → TempFactory → IRExp × TempFactory
  | .ex e, tf => (e, tf)
  | .nx _, tf => (.constE 0, tf)
  | .cx condFn, tf =>
    let (r, tf1) := newTemp tf
    let (t, tf2) := newLabel tf1
    let (f, tf3) := newLabel tf2
    let (join, tf4) := newLabel tf3
    let (condStm, tf5) := condFn t f tf4
    (.eseqE (seqNE (.moveS (.tempE r) (.constE 1))
        [condStm, .labelS f, .moveS (.tempE r) (.constE 0), jumpL join,
         .labelS t, jumpL join, .labelS join])
      (.tempE r), tf5)

/-- `unNx`: `Ex` is evaluated for effect; `Nx` unwraps (possibly null);
`Cx` is run into two adjacent fresh labels. -/
def unNx : TransExp → TempFactory → Option IRStm × TempFactory
  | .ex e, tf => (some (.expS e), tf)
  | .nx s, tf => (s, tf)
  | .cx condFn, tf =>
    let (t, tf1) := newLabel tf
    let (f, tf2) := newLabel tf1
    let (condStm, tf3) := condFn t f tf2
    (some (seqNE condStm [.labelS t, .labelS f]), tf3)

/-- `unCx`: `Ex e` compares `e != 0`; `Nx` jumps to the false label as a
fallback; `Cx` applies its stored function. -/
def unCx : TransExp → IRLabel → IRLabel → TempFactory → IRStm × TempFactory
  | .ex e, trueL, falseL, tf => (.cjumpS .ne e (.constE 0) trueL falseL, tf)
  | .nx _, _, falseL, tf => (jumpL falseL, tf)
  | .cx condFn, trueL, falseL, tf => condFn trueL falseL tf

def makeEx (e : IRExp) : TransExp := .ex e

def makeNx (s : Option IRStm) : TransExp := .nx s

def makeCx (f : CondFn) : TransExp := .cx f

/-! ### Frames and levels (translate/x64_frame.cpp, translate/translate.cpp)

`WORD_SIZE = 8`, `MAX_REG_ARGS = 6`.  A level is an index into the level
list (`shared_ptr<Level>` identity); each level owns its frame. -/

inductive IRAccess where
  | inFrame (offset : Int)
  | inReg (t : Nat)
deriving DecidableEq, Repr

structure FrameRec where
  name : IRLabel
  formals : List IRAccess
  localOffset : Int
  fp : Nat
  rv : Nat
deriving DecidableEq, Repr

structure LevelRec where
  parent : Option Nat
  frame : FrameRec
deriving DecidableEq, Repr

/-- The formal-allocation loop of the `X64Frame` constructor
(x64_frame.cpp 8-37). -/
def x64Formals : List Bool → Nat → Int → TempFactory → (List IRAccess × Int × TempFactory)
  | [], _, off, tf => ([], off, tf)
  | esc :: rest, i, off, tf =>
    if esc || i ≥ 6 then
      if i < 6 then
        let off2 := off - 8
        let (accs, off3, tf2) := x64Formals rest (i + 1) off2 tf
        (.inFrame off2 :: accs, off3, tf2)
      else
        let (accs, off2, tf2) := x64Formals rest (i + 1) off tf
        (.inFrame (16 + ((i : Int) - 6) * 8) :: accs, off2, tf2)
    else
      let (t, tf1) := newTemp tf
      let (accs, off2, tf2) := x64Formals rest (i + 1) off tf1
      (.inReg t :: accs, off2, tf2)

/-- The `X64Frame` constructor: fresh fp and rv temps, then the formals. -/
def mkX64Frame (name : IRLabel) (formals : List Bool) (tf : TempFactory) :
    FrameRec × TempFactory :=
  let (fp, tf1) := newTemp tf
  let (rv, tf2) := newTemp tf1
  let (accs, off, tf3) := x64Formals formals 0 0 tf2
  ({ name := name, formals := accs, localOffset := off, fp := fp, rv := rv }, tf3)

/-- `accessToExp` (ir_generator.cpp 7-14). -/
def accessToExp (access : IRAccess) (framePtr : IRExp) : IRExp :=
  match access with
  | .inFrame off => .memE (.binopE .plus framePtr (.constE off))
  | .inReg t => .tempE t

structure IRVarEntry where
  level : Nat
  access : IRAccess
deriving DecidableEq, Repr

structure IRFunEntry where
  level : Nat
  label : IRLabel
deriving DecidableEq, Repr

/-- `ProcFragment` / `StringFragment`. -/
inductive Fragment where
  | procF (body : Option IRStm) (frameLevel : Nat)
  | stringF (label : IRLabel) (value : String)

/-- The `IRGenerator` state: the temp factory, the level list (index =
identity), the flat variable/function maps with their per-scope name lists,
the break-label stack and the emitted fragments. -/
structure IRState where
  tf : TempFactory
  levels : List LevelRec
  currentLevel : Nat
  varEnv : Scope IRVarEntry
  funEnv : Scope IRFunEntry
  varScopes : List (List String)
  funScopes : List (List String)
  breakLabels : List IRLabel
  fragments : List Fragment

abbrev IRM (α : Type) := TigerM IRState α

/-- Run a `TempFactory` operation against the generator's factory member. -/
def liftTF {α : Type} (f : TempFactory → α × TempFactory) : IRM α := fun s =>
  .ok ((f s.tf).1, { s with tf := (f s.tf).2 })

def defaultLevel : LevelRec := ⟨none, ⟨⟨""⟩, [], 0, 0, 0⟩⟩

def levelAt (s : IRState) (i : Nat) : LevelRec := s.levels.getD i defaultLevel

def currentFrame (s : IRState) : FrameRec := (levelAt s s.currentLevel).frame

/-- `unordered_map` insert-or-assign. -/
def mapInsert {α : Type} (m : Scope α) (k : String) (v : α) : Scope α :=
  (k, v) :: m.filter (fun p => p.1 ≠ k)

/-- `unordered_map::erase`. -/
def mapErase {α : Type} (m : Scope α) (k : String) : Scope α :=
  m.filter (fun p => p.1 ≠ k)

/-- `IRGenerator::beginScope`. -/
def beginScopeIR : IRM Unit := modifyS fun s =>
  { s with varScopes := [] :: s.varScopes, funScopes := [] :: s.funScopes }

/-- `IRGenerator::endScope`: erase the names recorded for the scope (a
shadowed outer binding is erased with them, as in the C++ flat maps). -/
def endScopeIR : IRM Unit := modifyS fun s =>
  { s with
    varEnv := (s.varScopes.headD []).foldl mapErase s.varEnv
    varScopes := s.varScopes.tail
    funEnv := (s.funScopes.headD []).foldl mapErase s.funEnv
    funScopes := s.funScopes.tail }

/-- `IRGenerator::addVar`. -/
def addVarIR (name : String) (entry : IRVarEntry) : IRM Unit := modifyS fun s =>
  { s with varEnv := mapInsert s.varEnv name entry
           varScopes := match s.varScopes with
                        | [] => []
                        | sc :: rest => (sc ++ [name]) :: rest }

/-- `IRGenerator::addFun`. -/
def addFunIR (name : String) (entry : IRFunEntry) : IRM Unit := modifyS fun s =>
  { s with funEnv := mapInsert s.funEnv name entry
           funScopes := match s.funScopes with
                        | [] => []
                        | sc :: rest => (sc ++ [name]) :: rest }

def lookupVarIR (name : String) : IRM (Option IRVarEntry) := fun s =>
  .ok (scopeFind s.varEnv name, s)

def lookupFunIR (name : String) : IRM (Option IRFunEntry) := fun s =>
  .ok (scopeFind s.funEnv name, s)

def addFragment (f : Fragment) : IRM Unit := modifyS fun s =>
  { s with fragments := s.fragments ++ [f] }

/-- `IRGenerator::staticLinkChain` (ir_generator.cpp 94-110): follow the
first formal (the static link) of each frame from `fromLevel` up to
`toLevel`, starting at the current frame pointer.  The parent chain strictly
descends in level indices, so `levels.length + 1` steps dominate the loop. -/
def staticLinkChainAux (levels : List LevelRec) : Nat → Nat → Nat → IRExp → IRExp
  | 0, _, _, fp => fp
  | fuel + 1, level, toLevel, fp =>
    if level = toLevel then fp
    else
      match (levels.getD level defaultLevel).parent with
      | none => fp
      | some p =>
        let fp2 :=
          match (levels.getD level defaultLevel).frame.formals with
          | [] => fp
          | f0 :: _ => accessToExp f0 fp
        staticLinkChainAux levels fuel p toLevel fp2

def staticLinkChain (s : IRState) (fromLevel toLevel : Nat) : IRExp :=
  staticLinkChainAux s.levels (s.levels.length + 1) fromLevel toLevel
    (.tempE (currentFrame s).fp)

/-- `IRGenerator::accessVar` (ir_generator.cpp 112-115). -/
def accessVarIR (s : IRState) (entry : IRVarEntry) : IRExp :=
  accessToExp entry.access (staticLinkChain s s.currentLevel entry.level)

/-- `X64Frame::allocLocal` on the current level's frame: escaping locals go
one word further down the frame, others into a fresh temp. -/
def allocLocal (escape : Bool) : IRM IRAccess := fun s =>
  if escape then
    let lv := levelAt s s.currentLevel
    let off2 := lv.frame.localOffset - 8
    let lv2 := { lv with frame := { lv.frame with localOffset := off2 } }
    .ok (.inFrame off2, { s with levels := s.levels.set s.currentLevel lv2 })
  else
    let (t, tf2) := newTemp s.tf
    .ok (.inReg t, { s with tf := tf2 })

/-- `Level::newLevel` (translate.cpp 13-22): prepend the always-escaping
static link, build the frame, append the level. -/
def newLevelIR (parent : Nat) (name : IRLabel) (formals : List Bool) : IRM Nat := fun s =>
  let (frame, tf2) := mkX64Frame name (true :: formals) s.tf
  .ok (s.levels.length,
       { s with tf := tf2, levels := s.levels ++ [⟨some parent, frame⟩] })

/-- Parameter binding of `visit(ast::FunctionDecl*)`: `params[i]` is bound to
`frameFormals[i + 1]` (the accesses after the static link). -/
def addParamsIR (lvl : Nat) : List Param → List IRAccess → IRM Unit
  | [], _ => pure ()
  | p :: ps, a :: accs => do
    addVarIR p.name ⟨lvl, a⟩
    addParamsIR lvl ps accs
  | p :: ps, [] => do
    addVarIR p.name ⟨lvl, .inFrame 0⟩
    addParamsIR lvl ps []

/-! ### The IR generator (src/ir/ir_generator.cpp)

`φ` maps a declaration's flag label to the escape bit the escape analysis
left in the AST.  Fuel as for the semantic analyzer. -/

mutual

def visitIR (φ : Nat → Bool) : Nat → Expr → IRM TransExp
  | 0, _ => throwErr "out of fuel"
  | fuel + 1, e =>
    match e with
    | .varSimple name => do
      let entry? ← lookupVarIR name
      match entry? with
      | none => pure (makeEx (.constE 0))
      | some entry => do
        let s ← getS
        pure (makeEx (accessVarIR s entry))
    | .varField obj _ => do
      let baseExp ← visitIR φ fuel obj
      let base ← liftTF (unEx baseExp)
      pure (makeEx (.memE (.binopE .plus base (.constE 0))))
    | .varSubscript obj index => do
      let baseExp ← visitIR φ fuel obj
      let indexExp ← visitIR φ fuel index
      let base ← liftTF (unEx baseExp)
      let idx ← liftTF (unEx indexExp)
      pure (makeEx (.memE (.binopE .plus base (.binopE .mul idx (.constE 8)))))
    | .nilE => pure (makeEx (.constE 0))
    | .intE v => pure (makeEx (.constE v))
    | .stringE v => do
      let label ← liftTF newLabel
      addFragment (.stringF label v)
      pure (makeEx (.nameE label))
    | .callE func args => do
      let fe? ← lookupFunIR func
      match fe? with
      | none => pure (makeEx (.constE 0))
      | some fe => do
        let s ← getS
        let args0 :=
          match (s.levels.getD fe.level defaultLevel).parent with
          | some p => [staticLinkChain s s.currentLevel p]
          | none => []
        let argEs ← visitArgs φ fuel args
        pure (makeEx (.callE (.nameE fe.label) (args0 ++ argEs)))
    | .opE oper left right => do
      let leftExp ← visitIR φ fuel left
      let rightExp ← visitIR φ fuel right
      let l ← liftTF (unEx leftExp)
      let r ← liftTF (unEx rightExp)
      match oper with
      | .plus => pure (makeEx (.binopE .plus l r))
      | .minus => pure (makeEx (.binopE .minus l r))
      | .times => pure (makeEx (.binopE .mul l r))
      | .divide => pure (makeEx (.binopE .div l r))
      | .eq => pure (makeCx (fun t f tf => (.cjumpS .eq l r t f, tf)))
      | .neq => pure (makeCx (fun t f tf => (.cjumpS .ne l r t f, tf)))
      | .lt => pure (makeCx (fun t f tf => (.cjumpS .lt l r t f, tf)))
      | .le => pure (makeCx (fun t f tf => (.cjumpS .le l r t f, tf)))
      | .gt => pure (makeCx (fun t f tf => (.cjumpS .gt l r t f, tf)))
      | .ge => pure (makeCx (fun t f tf => (.cjumpS .ge l r t f, tf)))
      | .andOp => do
        let z ← liftTF newLabel
        pure (makeCx (fun t f tf =>
          let (s1, tf1) := unCx leftExp z f tf
          let (s2, tf2) := unCx rightExp t f tf1
          (seqNE s1 [.labelS z, s2], tf2)))
      | .orOp => do
        let z ← liftTF newLabel
        pure (makeCx (fun t f tf =>
          let (s1, tf1) := unCx leftExp t z tf
          let (s2, tf2) := unCx rightExp t f tf1
          (seqNE s1 [.labelS z, s2], tf2)))
    | .recordE _ fields => do
      let r ← liftTF newTemp
      let initStm : IRStm := .moveS (.tempE r)
        (.callE (.nameE (namedLabel "allocRecord")) [.constE ((fields.length : Int) * 8)])
      let finalStm ← recordInit φ fuel fields r 0 initStm
      pure (makeEx (.eseqE finalStm (.tempE r)))
    | .arrayE _ size init => do
      let sizeExp ← visitIR φ fuel size
      let initExp ← visitIR φ fuel init
      let sz ← liftTF (unEx sizeExp)
      let ini ← liftTF (unEx initExp)
      pure (makeEx (.callE (.nameE (namedLabel "initArray")) [sz, ini]))
    | .assignE lhs rhs => do
      let valExp ← visitIR φ fuel rhs
      let val ← liftTF (unEx valExp)
      match lhs with
      | .varSimple name => do
        let entry? ← lookupVarIR name
        let s ← getS
        let dst :=
          match entry? with
          | some entry => accessVarIR s entry
          | none => .constE 0
        pure (makeNx (some (.moveS dst val)))
      | .varField obj _ => do
        let baseExp ← visitIR φ fuel obj
        let base ← liftTF (unEx baseExp)
        pure (makeNx (some (.moveS (.memE (.binopE .plus base (.constE 0))) val)))
      | .varSubscript obj index => do
        let baseExp ← visitIR φ fuel obj
        let indexExp ← visitIR φ fuel index
        let base ← liftTF (unEx baseExp)
        let idx ← liftTF (unEx indexExp)
        pure (makeNx (some (.moveS
          (.memE (.binopE .plus base (.binopE .mul idx (.constE 8)))) val)))
      | _ => pure (makeNx (some (.expS (.constE 0))))
    | .ifE test then_clause else_clause => do
      let testExp ← visitIR φ fuel test
      let thenExp ← visitIR φ fuel then_clause
      let t ← liftTF newLabel
      let f ← liftTF newLabel
      let join ← liftTF newLabel
      match else_clause with
      | some els => do
        let elseExp ← visitIR φ fuel els
        let r ← liftTF newTemp
        let condStm ← liftTF (unCx testExp t f)
        let thenE ← liftTF (unEx thenExp)
        let elseE ← liftTF (unEx elseExp)
        pure (makeEx (.eseqE (seqNE condStm
          [.labelS t, .moveS (.tempE r) thenE, jumpL join, .labelS f,
           .moveS (.tempE r) elseE, jumpL join, .labelS join]) (.tempE r)))
      | none => do
        let condStm ← liftTF (unCx testExp t f)
        let thenNx ← liftTF (unNx thenExp)
        pure (makeNx (seqList [some condStm, some (.labelS t), thenNx, some (.labelS f)]))
    | .whileE test body => do
      let testL ← liftTF newLabel
      let bodyL ← liftTF newLabel
      let doneL ← liftTF newLabel
      modifyS (fun s => { s with breakLabels := s.breakLabels ++ [doneL] })
      let testExp ← visitIR φ fuel test
      let bodyExp ← visitIR φ fuel body
      modifyS (fun s => { s with breakLabels := s.breakLabels.dropLast })
      let condStm ← liftTF (unCx testExp bodyL doneL)
      let bodyNx ← liftTF (unNx bodyExp)
      pure (makeNx (seqList [some (.labelS testL), some condStm, some (.labelS bodyL),
        bodyNx, some (jumpL testL), some (.labelS doneL)]))
    | .forE lbl var lo hi body => do
      let bodyL ← liftTF newLabel
      let incrL ← liftTF newLabel
      let doneL ← liftTF newLabel
      let access ← allocLocal (φ lbl)
      let s0 ← getS
      let varEntry : IRVarEntry := ⟨s0.currentLevel, access⟩
      beginScopeIR
      addVarIR var varEntry
      let loExp ← visitIR φ fuel lo
      let hiExp ← visitIR φ fuel hi
      let s1 ← getS
      let varAddr := accessVarIR s1 varEntry
      let limit ← liftTF newTemp
      modifyS (fun s => { s with breakLabels := s.breakLabels ++ [doneL] })
      let bodyExp ← visitIR φ fuel body
      modifyS (fun s => { s with breakLabels := s.breakLabels.dropLast })
      endScopeIR
      let loE ← liftTF (unEx loExp)
      let hiE ← liftTF (unEx hiExp)
      let bodyNx ← liftTF (unNx bodyExp)
      pure (makeNx (seqList
        [some (.moveS varAddr loE), some (.moveS (.tempE limit) hiE),
         some (.cjumpS .le varAddr (.tempE limit) bodyL doneL),
         some (.labelS bodyL), bodyNx,
         some (.cjumpS .lt varAddr (.tempE limit) incrL doneL),
         some (.labelS incrL),
         some (.moveS varAddr (.binopE .plus varAddr (.constE 1))),
         some (jumpL bodyL), some (.labelS doneL)]))
    | .breakE => do
      let s ← getS
      match s.breakLabels.getLast? with
      | none => pure (makeNx none)
      | some l => pure (makeNx (some (jumpL l)))
    | .letE decls body => do
      beginScopeIR
      let declStm ← irDecls φ fuel decls none
      let (bodyStm, lastExp) ← irBodyLoop φ fuel body none
      endScopeIR
      let allStm := seqOpt declStm bodyStm
      match allStm with
      | some stm => do
        let lastE ← liftTF (unEx lastExp)
        pure (makeEx (.eseqE stm lastE))
      | none => pure lastExp
    | .seqE exprs =>
      match exprs with
      | [] => pure (makeNx none)
      | _ :: _ => do
        let (stm, lastExp) ← irBodyLoop φ fuel exprs none
        match stm with
        | some st => do
          let lastE ← liftTF (unEx lastExp)
          pure (makeEx (.eseqE st lastE))
        | none => pure lastExp

/-- Argument-translation loop of `visit(CallExpr*)`. -/
def visitArgs (φ : Nat → Bool) : Nat → List Expr → IRM (List IRExp)
  | 0, _ => throwErr "out of fuel"
  | _ + 1, [] => pure []
  | fuel + 1, a :: rest => do
    let argExp ← visitIR φ fuel a
    let argE ← liftTF (unEx argExp)
    let restEs ← visitArgs φ fuel rest
    pure (argE :: restEs)

/-- Field-initialisation loop of `visit(RecordExpr*)`. -/
def recordInit (φ : Nat → Bool) :
    Nat → List (String × Expr) → Nat → Int → IRStm → IRM IRStm
  | 0, _, _, _, _ => throwErr "out of fuel"
  | _ + 1, [], _, _, acc => pure acc
  | fuel + 1, (_, fe) :: rest, r, off, acc => do
    let valExp ← visitIR φ fuel fe
    let val ← liftTF (unEx valExp)
    recordInit φ fuel rest r (off + 8)
      (.seqS acc (.moveS (.memE (.binopE .plus (.tempE r) (.constE off))) val))

/-- The body loops of `visit(LetExpr*)` / `visit(SeqExpr*)`: all but the last
expression are sequenced for effect, the last is kept as the value. -/
def irBodyLoop (φ : Nat → Bool) :
    Nat → List Expr → Option IRStm → IRM (Option IRStm × TransExp)
  | 0, _, _ => throwErr "out of fuel"
  | _ + 1, [], acc => pure (acc, makeEx (.constE 0))
  | fuel + 1, [e], acc => do
    let te ← visitIR φ fuel e
    pure (acc, te)
  | fuel + 1, e :: rest, acc => do
    let te ← visitIR φ fuel e
    let nx ← liftTF (unNx te)
    irBodyLoop φ fuel rest (seqOpt acc nx)

/-- Declaration loop of `visit(LetExpr*)` (only variable declarations emit a
statement). -/
def irDecls (φ : Nat → Bool) : Nat → List Decl → Option IRStm → IRM (Option IRStm)
  | 0, _, _ => throwErr "out of fuel"
  | _ + 1, [], acc => pure acc
  | fuel + 1, d :: rest, acc => do
    let dExp? ← irDecl φ fuel d
    match dExp? with
    | some dExp => do
      let nx ← liftTF (unNx dExp)
      irDecls φ fuel rest (seqOpt acc nx)
    | none => irDecls φ fuel rest acc

/-- Declaration visitors (ir_generator.cpp 508-575). -/
def irDecl (φ : Nat → Bool) : Nat → Decl → IRM (Option TransExp)
  | 0, _ => throwErr "out of fuel"
  | _ + 1, .typeD _ _ => pure none
  | fuel + 1, .varD lbl name _ init => do
    let access ← allocLocal (φ lbl)
    let s0 ← getS
    addVarIR name ⟨s0.currentLevel, access⟩
    let initExp ← visitIR φ fuel init
    let s1 ← getS
    let varAddr := accessToExp access (.tempE (currentFrame s1).fp)
    let initE ← liftTF (unEx initExp)
    pure (some (makeNx (some (.moveS varAddr initE))))
  | fuel + 1, .funD name params result_type body => do
    let funcLabel := namedLabel name
    let formals := true :: params.map (fun p => φ p.lbl)
    let s0 ← getS
    let funcLevel ← newLevelIR s0.currentLevel funcLabel formals
    addFunIR name ⟨funcLevel, funcLabel⟩
    let savedLevel := s0.currentLevel
    modifyS (fun s => { s with currentLevel := funcLevel })
    beginScopeIR
    let s1 ← getS
    let frameFormals := (currentFrame s1).formals
    addParamsIR funcLevel params (frameFormals.drop 1)
    let bodyExp ← visitIR φ fuel body
    let s2 ← getS
    let bodyStm ←
      (if result_type = "" then liftTF (unNx bodyExp)
       else do
         let bodyE ← liftTF (unEx bodyExp)
         pure (some (.moveS (.tempE (currentFrame s2).rv) bodyE)))
    endScopeIR
    addFragment (.procF bodyStm funcLevel)
    modifyS (fun s => { s with currentLevel := savedLevel })
    pure none

end

/-- The `IRGenerator` constructor state: the outermost `_main` level (a frame
with no formals, translate.cpp 7-11), one scope, the builtin functions. -/
def initIRM : IRM Unit := do
  beginScopeIR
  addFunIR "print" ⟨0, namedLabel "print"⟩
  addFunIR "printi" ⟨0, namedLabel "printi"⟩
  addFunIR "flush" ⟨0, namedLabel "flush"⟩
  addFunIR "getchar" ⟨0, namedLabel "getchar"⟩
  addFunIR "ord" ⟨0, namedLabel "ord"⟩
  addFunIR "chr" ⟨0, namedLabel "chr"⟩
  addFunIR "size" ⟨0, namedLabel "size"⟩
  addFunIR "substring" ⟨0, namedLabel "substring"⟩
  addFunIR "concat" ⟨0, namedLabel "concat"⟩
  addFunIR "not" ⟨0, namedLabel "not"⟩
  addFunIR "exit" ⟨0, namedLabel "exit"⟩

def initialIRState : IRState :=
  let (frame, tf1) := mkX64Frame (namedLabel "_main") [] ⟨0, 0⟩
  let base : IRState :=
    ⟨tf1, [⟨none, frame⟩], 0, [], [], [], [], [], []⟩
  match initIRM base with
  | .ok (_, s) => s
  | .error _ => base

/-- `IRGenerator::generate`: translate the program and emit the main
fragment (`procEntryExit` is the identity at this stage). -/
def irGenerate (φ : Nat → Bool) (fuel : Nat) (program : Expr) : Except String IRState :=
  let run : IRM Unit := do
    beginScopeIR
    let result ← visitIR φ fuel program
    let body ← liftTF (unNx result)
    let s ← getS
    addFragment (.procF body s.currentLevel)
    endScopeIR
  (run initialIRState).map Prod.snd

/-! ### The specification's declaration batching (comparator for the let
grouping)

Modelled from the spec: "Walk the declaration list in order, forming maximal
consecutive runs of same-kind declarations where same-kind partitions into
{Type}, {Function}, {Var}" — a type run stops at the first non-type
declaration (including a function), a function run at the first non-function
one, and each var is processed alone.  The two-phase batch processors are
the code's own (`processTypeDeclarations` / `processFunctionDeclarations`);
only the run formation differs from `visit(LetExpr*)`. -/

def takeTypeRun : List Decl → (List (String × AstType) × List Decl)
  | .typeD n t :: rest =>
    let (tg, r) := takeTypeRun rest
    ((n, t) :: tg, r)
  | ds => ([], ds)

def takeFunRun : List Decl → (List FunDecl × List Decl)
  | .funD n ps rt b :: rest =>
    let (fg, r) := takeFunRun rest
    (⟨n, ps, rt, b⟩ :: fg, r)
  | ds => ([], ds)

def specRunDecls : Nat → List Decl → SemM Unit
  | 0, _ => throwErr "out of fuel"
  | _ + 1, [] => pure ()
  | fuel + 1, .typeD n t :: ds => do
    let (tg, rest) := takeTypeRun (.typeD n t :: ds)
    processTypeDeclarations tg
    specRunDecls fuel rest
  | fuel + 1, .funD n ps rt b :: ds => do
    let (fg, rest) := takeFunRun (.funD n ps rt b :: ds)
    processFunctionDeclarations fuel fg
    specRunDecls fuel rest
  | fuel + 1, .varD l n tid i :: ds => do
    visitDecl fuel (.varD l n tid i)
    specRunDecls fuel ds

/-- A let expression analyzed with the specification's batching instead of
the code's. -/
def specAnalyzeLet (fuel : Nat) (decls : List Decl) (body : List Expr) : Except String Nat :=
  (do beginScopeS
      specRunDecls fuel decls
      let lastType ← visitExprList fuel body voidIdx
      endScopeS
      pure lastType : SemM Nat) initialSemState |>.map Prod.fst

/-! ### `TypeContext` heap operations in isolation (for the fresh-id claims)

Every mutation the semantic analyzer performs on the type heap goes through
one of these five operations. -/

inductive CtxOp where
  | newRecordOp
  | newArrayOp (elem : Nat)
  | newNameOp (name : String)
  | bindOp (i target : Nat)
  | addFieldOp (i : Nat) (name : String) (ty : Nat)

def applyCtxOp (s : SemState) : CtxOp → SemState
  | .newRecordOp =>
    match createRecordType s with
    | .ok (_, s2) => s2
    | .error _ => s
  | .newArrayOp elem =>
    match createArrayType elem s with
    | .ok (_, s2) => s2
    | .error _ => s
  | .newNameOp name =>
    match createNameType name s with
    | .ok (_, s2) => s2
    | .error _ => s
  | .bindOp i target =>
    match bindName i target s with
    | .ok (_, s2) => s2
    | .error _ => s
  | .addFieldOp i name ty =>
    match addField i name ty s with
    | .ok (_, s2) => s2
    | .error _ => s

def runCtxOps (ops : List CtxOp) (s : SemState) : SemState :=
  ops.foldl applyCtxOp s

/-! ### Concrete programs for the claims -/

def isOkE {ε α : Type} : Except ε α → Bool
  | .ok _ => true
  | .error _ => false

/-- `nil = nil` / `nil <> nil`. -/
def pNilEqNil : Expr := .opE .eq .nilE .nilE
def pNilNeNil : Expr := .opE .neq .nilE .nilE

/-- `let var b := nil in 0 end`. -/
def pBareNil : Expr := .letE [.varD 0 "b" "" .nilE] [.intE 0]

/-- `let type point = {x:int, y:int} var p : point := nil in 0 end`. -/
def pNilAnnot : Expr := .letE
  [.typeD "point" (.recordT [("x", "int"), ("y", "int")]),
   .varD 0 "p" "point" .nilE]
  [.intE 0]

/-- `let type a = int type a = string in 0 end` (duplicate type names in one
batch, examples/test38.tig). -/
def pDupTypes : Expr := .letE [.typeD "a" (.nameT "int"), .typeD "a" (.nameT "string")] [.intE 0]

/-- Duplicate function names in one batch (examples/test39.tig). -/
def pDupFuns : Expr := .letE
  [.funD "f" [] "int" (.intE 1), .funD "f" [] "int" (.intE 2)]
  [.callE "f" []]

/-- `let type a = b type b = a in 0 end`. -/
def pCycle : Expr := .letE [.typeD "a" (.nameT "b"), .typeD "b" (.nameT "a")] [.intE 0]

/-- `let type list = {head:int, tail:list} in 0 end`. -/
def pRecList : Expr := .letE [.typeD "list" (.recordT [("head", "int"), ("tail", "list")])] [.intE 0]

/-- `let type a = b function f():int = 1 type b = int in f() end`: the
declarations of `a` and `b` are separated by a function declaration. -/
def pTypeFunType : Expr := .letE
  [.typeD "a" (.nameT "b"), .funD "f" [] "int" (.intE 1), .typeD "b" (.nameT "int")]
  [.callE "f" []]

/-- `let type a = b var x := 1 type b = int in 0 end`: separated by a var. -/
def pTypeVarType : Expr := .letE
  [.typeD "a" (.nameT "b"), .varD 0 "x" "" (.intE 1), .typeD "b" (.nameT "int")]
  [.intE 0]

/-- `while 1 do let function f() = break in f() end`: a break inside a
function declared inside a loop. -/
def pBreakInFn : Expr := .whileE (.intE 1) (.letE [.funD "f" [] "" .breakE] [.callE "f" []])

/-- `let type r = {} type a = array of int in 0 end`: one record and one
array declaration in a single run. -/
def pRecAndArr : Expr := .letE
  [.typeD "r" (.recordT []), .typeD "a" (.arrayT "int")]
  [.intE 0]

/-- The heap after creating one record and one array in a fresh run (the
creations `translateType` performs for `pRecAndArr`'s two declarations). -/
def recAndArrCtx : SemState :=
  runCtxOps [.newRecordOp, .newArrayOp 0] initialSemState

/-- `for i := 0 to 3 do ()`. -/
def pForUnit : Expr := .forE 0 "i" (.intE 0) (.intE 3) (.seqE [])

/-- The type declaration a `Decl` carries, if any. -/
def typeOfDecl : Decl → Option (String × AstType)
  | .typeD n t => some (n, t)
  | _ => none

/-- The function declaration a `Decl` carries, if any. -/
def funOfDecl : Decl → Option FunDecl
  | .funD n ps rt b => some ⟨n, ps, rt, b⟩
  | _ => none

/-- `let type point = {x:int} function g(p:point):int = 0 in g(nil) end`. -/
def pNilArg : Expr := .letE
  [.typeD "point" (.recordT [("x", "int")]),
   .funD "g" [⟨0, "p", "point"⟩] "int" (.intE 0)]
  [.callE "g" [.nilE]]

/-- The name a heap cell carries, when it is a `NameType`. -/
def nameAt (h : TypeHeap) (i : Nat) : Option String :=
  match heapGet h i with
  | .nameT n _ => some n
  | _ => none

/-- The k-th node of the alias chain followed by phase 3 starting at `i`:
a step exists exactly when the current node is a bound `NameType` whose
binding is again a `NameType` (the chase moves to the binding; a non-name
binding stops the walk). -/
def chainAt (h : TypeHeap) (i : Nat) : Nat → Option Nat
  | 0 => some i
  | k + 1 =>
    match chainAt h i k with
    | some j =>
      match heapGet h j with
      | .nameT _ (some b) => if (heapGet h b).isNameK then some b else none
      | _ => none
    | none => none

/-- The names of chain nodes 1..m (node 0 is the start). -/
def chainNames (h : TypeHeap) (i : Nat) (m : Nat) : List String :=
  (List.range m).filterMap (fun k => (chainAt h i (k + 1)).bind (nameAt h))

/-- All names carried by `NameType` cells of the heap. -/
def allNames (h : TypeHeap) : List String :=
  h.filterMap (fun t => match t with | .nameT n _ => some n | _ => none)

/-- The specification's reading of the phase-3 error condition: some name
repeats along the alias chain before a non-alias is reached — the (m+1)-st
chain node carries a name already seen among the start name and the names
of nodes 1..m. -/
def chainRepeats (h : TypeHeap) (start : String) (i : Nat) : Prop :=
  ∃ m im n, chainAt h i (m + 1) = some im ∧ nameAt h im = some n ∧
    (n = start ∨ n ∈ chainNames h i m)

/-- Freshness invariant of the `TypeContext` id counters: every record id in
the heap is below `nextRecordId` and record ids strictly increase with heap
position (allocation order); likewise for arrays. -/
def ctxHeapInv (s : SemState) : Prop :=
  (∀ i f id, heapGet s.heap i = .recordT f id → id < s.nextRecordId) ∧
  (∀ i j fi idi fj idj, i < j → heapGet s.heap i = .recordT fi idi →
    heapGet s.heap j = .recordT fj idj → idi < idj) ∧
  (∀ i e id, heapGet s.heap i = .arrayT e id → id < s.nextArrayId) ∧
  (∀ i j ei idi ej idj, i < j → heapGet s.heap i = .arrayT ei idi →
    heapGet s.heap j = .arrayT ej idj → idi < idj)

/-! ## Theorems -/

/-- Application of the state-monad bind, for unfolding visitor runs. -/
theorem tigerM_bind_apply {σ α β : Type} (x : TigerM σ α) (f : α → TigerM σ β) (s : σ) :
    (x >>= f) s = match x s with
                  | .error e => .error e
                  | .ok (a, s1) => f a s1 := rfl

/-- Application of the state-monad pure. -/
theorem tigerM_pure_apply {σ α : Type} (a : α) (s : σ) :
    (pure a : TigerM σ α) s = .ok (a, s) := rfl

/-- A non-name heap entry is its own `actual`. -/
theorem actual_nonname (h : TypeHeap) (i : Nat) (hk : (heapGet h i).isNameK = false) :
    actual h i = i := by
  unfold actual actualAux
  rcases hx : heapGet h i <;> simp_all [SemType.isNameK]

/-- C2: counterexample — the analyzer accepts `nil = nil` and `nil <> nil`
(both operands are the one shared Nil instance, so the identity comparison
in `checkTypeEquals` succeeds and no error is raised), and `equals` is not
the pure actual-identity relation either: a raw record is unequal to an
alias bound to it although both have the same `actual`. -/
theorem nil_equality_counterexample :
    semAnalyze 50 pNilEqNil = .ok intIdx ∧
    semAnalyze 50 pNilNeNil = .ok intIdx ∧
    equals [.recordT [] 0, .nameT "r" (some 0)] 0 1 = false ∧
    actual [.recordT [] 0, .nameT "r" (some 0)] 0 =
      actual [.recordT [] 0, .nameT "r" (some 0)] 1 :=
  ⟨rfl, rfl, rfl, rfl⟩

/-- C2 (amended): `equals` dispatches on the left operand — primitives
compare by identity of `actual` representatives, a record equals a raw Nil
(the equal-for-assignment exception) and otherwise a raw record on the right
with the same id; and the analyzer ACCEPTS `nil = nil` / `nil <> nil`
(returning int) since the two Nils are the same shared instance, while a
`nil` initializer or argument is accepted wherever a record type is
expected. -/
theorem nil_equality_amended :
    semAnalyze 50 pNilEqNil = .ok intIdx ∧
    semAnalyze 50 pNilNeNil = .ok intIdx ∧
    semAnalyze 50 pNilAnnot = .ok intIdx ∧
    semAnalyze 50 pNilArg = .ok intIdx ∧
    (∀ (h : TypeHeap) (i j : Nat),
      (heapGet h i).isRecordK = false → (heapGet h i).isArrayK = false →
      (heapGet h i).isNameK = false →
      (equals h i j = true ↔ actual h i = actual h j)) ∧
    (∀ (h : TypeHeap) (i j : Nat),
      (heapGet h i).isRecordK = true → (heapGet h j).isNilK = true →
      equals h i j = true) ∧
    (∀ (h : TypeHeap) (i j : Nat),
      (heapGet h i).isRecordK = true → (heapGet h j).isRecordK = true →
      (equals h i j = true ↔ heapId h i = heapId h j)) := by
  refine ⟨rfl, rfl, rfl, rfl, ?_, ?_, ?_⟩
  · intro h i j h1 h2 h3
    unfold equals equalsAux
    rcases hx : heapGet h i <;>
      simp_all [SemType.isRecordK, SemType.isArrayK, SemType.isNameK]
  · intro h i j h1 h2
    unfold equals equalsAux
    rcases hx : heapGet h i <;> rcases hy : heapGet h j <;>
      simp_all [SemType.isRecordK, SemType.isNilK]
  · intro h i j h1 h2
    have hj : actual h j = j := actual_nonname h j
      (by rcases hy : heapGet h j <;> simp_all [SemType.isRecordK, SemType.isNameK])
    unfold equals equalsAux
    rcases hx : heapGet h i <;> rcases hy : heapGet h j <;>
      simp_all [SemType.isRecordK, heapId]

/-- C2 amended, witnessed at concrete inputs: the identity reading on a
primitive heap and the record/nil exception. -/
theorem nil_equality_amended_witness :
    (equals [SemType.intT] 0 0 = true ↔ actual [SemType.intT] 0 = actual [SemType.intT] 0) ∧
    equals [SemType.recordT [] 0, SemType.nilT] 0 1 = true ∧
    (equals [SemType.recordT [] 0, SemType.recordT [] 0] 0 1 = true ↔
      heapId [SemType.recordT [] 0, SemType.recordT [] 0] 0 =
        heapId [SemType.recordT [] 0, SemType.recordT [] 0] 1) :=
  ⟨nil_equality_amended.2.2.2.2.1 [SemType.intT] 0 0 rfl rfl rfl,
   nil_equality_amended.2.2.2.2.2.1 [SemType.recordT [] 0, SemType.nilT] 0 1 rfl rfl,
   nil_equality_amended.2.2.2.2.2.2 [SemType.recordT [] 0, SemType.recordT [] 0] 0 1 rfl rfl⟩

/-- C10: `visit(BreakExpr*)` consults only the global loop-depth counter —
it errors exactly when the counter is non-positive and otherwise returns
void leaving the state untouched; the counter survives into function-body
analysis, so a break inside a function declared inside a while loop is
accepted, while a bare break errors. -/
theorem break_loop_depth :
    (∀ (fuel : Nat) (s : SemState),
      visitExpr (fuel + 1) .breakE s =
        if s.loopDepth > 0 then .ok (voidIdx, s)
        else .error "break statement must be inside a loop") ∧
    semAnalyze 50 pBreakInFn = .ok voidIdx ∧
    semAnalyze 50 .breakE = .error "break statement must be inside a loop" := by
  refine ⟨?_, rfl, rfl⟩
  intro fuel s
  simp only [visitExpr, tigerM_bind_apply, getS, inLoop, throwErr, tigerM_pure_apply]
  by_cases hd : s.loopDepth > 0 <;> simp [hd, tigerM_pure_apply, throwErr]

/-- C9: the wrapper conversions are total functions with the documented
fallbacks: `Nx.unEx` yields `CONST(0)`, `Nx.unCx` yields `JUMP(falseL)`,
`Ex.unCx` yields `CJUMP(NE, e, CONST(0), trueL, falseL)` — and `Ex.unEx`,
`Nx.unNx` unwrap — so no Ex/Nx/Cx conversion can abort translation. -/
theorem transexp_conversions_total :
    (∀ (s : Option IRStm) (tf : TempFactory), unEx (.nx s) tf = (.constE 0, tf)) ∧
    (∀ (s : Option IRStm) (t f : IRLabel) (tf : TempFactory),
      unCx (.nx s) t f tf = (jumpL f, tf)) ∧
    (∀ (e : IRExp) (t f : IRLabel) (tf : TempFactory),
      unCx (.ex e) t f tf = (.cjumpS .ne e (.constE 0) t f, tf)) ∧
    (∀ (e : IRExp) (tf : TempFactory), unEx (.ex e) tf = (e, tf)) ∧
    (∀ (s : Option IRStm) (tf : TempFactory), unNx (.nx s) tf = (s, tf)) :=
  ⟨fun _ _ => rfl, fun _ _ _ _ => rfl, fun _ _ _ _ => rfl, fun _ _ => rfl, fun _ _ => rfl⟩

/-- Application of `liftTF`. -/
theorem liftTF_apply {α : Type} (f : TempFactory → α × TempFactory) (s : IRState) :
    liftTF f s = .ok ((f s.tf).1, { s with tf := (f s.tf).2 }) := rfl

/-- `allocLocal` never fails. -/
theorem allocLocal_ok (esc : Bool) (s : IRState) :
    ∃ a s2, allocLocal esc s = .ok (a, s2) := by
  cases esc
  · exact ⟨_, _, rfl⟩
  · exact ⟨_, _, rfl⟩

/-- C7: every `for` translation has the split-test shape — an initial
`CJUMP(LE, i, limit, body, done)` before the loop is entered, and after the
body a `CJUMP(LT, i, limit, incr, done)` guarding the increment, so `i` is
incremented only when strictly below the limit; witnessed in full on
`for i := 0 to 3 do ()`. -/
theorem for_translation_shape :
    (∀ (φ : Nat → Bool) (fuel lbl : Nat) (v : String) (lo hi body : Expr) (s : IRState),
      match visitIR φ (fuel + 1) (.forE lbl v lo hi body) s with
      | .error _ => True
      | .ok (te, _) =>
        ∃ (varAddr loE hiE : IRExp) (limit : Nat) (bodyNx : Option IRStm)
          (bodyL incrL doneL : IRLabel),
          te = makeNx (seqList
            [some (.moveS varAddr loE), some (.moveS (.tempE limit) hiE),
             some (.cjumpS .le varAddr (.tempE limit) bodyL doneL),
             some (.labelS bodyL), bodyNx,
             some (.cjumpS .lt varAddr (.tempE limit) incrL doneL),
             some (.labelS incrL),
             some (.moveS varAddr (.binopE .plus varAddr (.constE 1))),
             some (jumpL bodyL), some (.labelS doneL)])) ∧
    (∃ s2, visitIR (fun _ => false) 20 pForUnit initialIRState =
      .ok (makeNx (seqList
        [some (.moveS (.tempE 2) (.constE 0)), some (.moveS (.tempE 3) (.constE 3)),
         some (.cjumpS .le (.tempE 2) (.tempE 3) ⟨"L0"⟩ ⟨"L2"⟩),
         some (.labelS ⟨"L0"⟩), none,
         some (.cjumpS .lt (.tempE 2) (.tempE 3) ⟨"L1"⟩ ⟨"L2"⟩),
         some (.labelS ⟨"L1"⟩),
         some (.moveS (.tempE 2) (.binopE .plus (.tempE 2) (.constE 1))),
         some (jumpL ⟨"L0"⟩), some (.labelS ⟨"L2"⟩)]), s2)) := by
  refine ⟨?_, ⟨_, rfl⟩⟩
  intro φ fuel lbl v lo hi body s
  simp only [visitIR, tigerM_bind_apply, liftTF_apply]
  obtain ⟨acc, sacc, hacc⟩ := allocLocal_ok (φ lbl) _
  rw [hacc]
  simp only [getS, beginScopeIR, addVarIR, modifyS, tigerM_bind_apply, tigerM_pure_apply]
  cases hlo : visitIR φ fuel lo _ with
  | error e => simp
  | ok rlo =>
    obtain ⟨loExp, s4⟩ := rlo
    simp only [tigerM_bind_apply, liftTF_apply, tigerM_pure_apply]
    cases hhi : visitIR φ fuel hi s4 with
    | error e => simp
    | ok rhi =>
      obtain ⟨hiExp, s5⟩ := rhi
      simp only [getS, modifyS, tigerM_bind_apply, liftTF_apply, tigerM_pure_apply]
      cases hbody : visitIR φ fuel body _ with
      | error e => simp
      | ok rbody =>
        obtain ⟨bodyExp, s6⟩ := rbody
        simp only [endScopeIR, modifyS, tigerM_bind_apply, liftTF_apply, tigerM_pure_apply]
        exact ⟨_, _, _, _, _, _, _, _, rfl⟩

/-- C3: the code accepts `let var b := nil in 0 end` — no semantic error is
raised for a bare `nil` initializer without a declared type (`b` is entered
with the Nil type), although the spec (and examples/test45.tig, which
`semantic_test.cpp` expects to fail) require an error; with a record
annotation the declaration is accepted as the claim says. -/
theorem bareNil_accepted :
    semAnalyze 50 pBareNil = .ok intIdx ∧ semAnalyze 50 pNilAnnot = .ok intIdx :=
  ⟨rfl, rfl⟩

/-- C4: the code accepts duplicate type names and duplicate function names
within one batch without any error — `enterType`/`enterFunc` silently
overwrite during the header phase — although the spec (and
examples/test38.tig, test39.tig, which `semantic_test.cpp` expects to fail)
require a semantic error. -/
theorem duplicate_names_accepted :
    semAnalyze 50 pDupTypes = .ok intIdx ∧ semAnalyze 50 pDupFuns = .ok intIdx :=
  ⟨rfl, rfl⟩

/-- C1: counterexample — on `let type a = b function f():int = 1 type b = int
in f() end` the code accepts (the two type declarations land in one batch
although a function declaration separates them, so `b` resolves), while the
specification's same-kind maximal-run batching (`specRunDecls`) stops the
type run at `f` and fails on the then-undefined `b`. -/
theorem grouping_counterexample :
    semAnalyze 50 pTypeFunType = .ok intIdx ∧
    specAnalyzeLet 50
      [.typeD "a" (.nameT "b"), .funD "f" [] "int" (.intE 1), .typeD "b" (.nameT "int")]
      [.callE "f" []] = .error "Undefined type: b" :=
  ⟨rfl, rfl⟩

/-- C1 (amended): declaration groups are maximal consecutive runs of
type-OR-function declarations and are ended only by a variable declaration:
`collectGroups` gathers the whole type/function prefix into one type batch
and one function batch and stops exactly at the first var; consequently two
type declarations separated by a function declaration ARE mutually
recursive (the program of the counterexample is accepted), while a var
declaration between them ends the run (its `b` stays undefined). -/
theorem grouping_amended :
    (∀ ds : List Decl,
      collectGroups ds =
        ((ds.takeWhile fun d => d.isTypeDecl || d.isFunctionDecl).filterMap typeOfDecl,
         (ds.takeWhile fun d => d.isTypeDecl || d.isFunctionDecl).filterMap funOfDecl,
         ds.dropWhile fun d => d.isTypeDecl || d.isFunctionDecl)) ∧
    semAnalyze 50 pTypeFunType = .ok intIdx ∧
    semAnalyze 50 pTypeVarType = .error "Undefined type: b" := by
  refine ⟨?_, rfl, rfl⟩
  intro ds
  induction ds with
  | nil => rfl
  | cons d rest ih =>
    cases d <;>
      simp [collectGroups, List.takeWhile, List.dropWhile, typeOfDecl, funOfDecl,
        Decl.isTypeDecl, Decl.isFunctionDecl, ih]

/-- Reading an extended heap. -/
theorem heapGet_append (h : TypeHeap) (t : SemType) (i : Nat) :
    heapGet (h ++ [t]) i =
      if i < h.length then heapGet h i
      else if i = h.length then t else .voidT := by
  unfold heapGet
  by_cases h1 : i < h.length
  · rw [List.getD_append _ _ _ _ h1]
    simp [h1]
  · have h1' : h.length ≤ i := Nat.le_of_not_lt h1
    rw [List.getD_append_right _ _ _ _ h1']
    by_cases h2 : i = h.length
    · subst h2
      simp
    · have hge : 1 ≤ i - h.length := by omega
      rw [List.getD_eq_default _ _ (by simpa using hge)]
      simp [h1, h2]

/-- Reading an updated heap at a different index. -/
theorem heapGet_set_ne (h : TypeHeap) (i j : Nat) (x : SemType) (hne : j ≠ i) :
    heapGet (h.set i x) j = heapGet h j := by
  unfold heapGet
  rw [List.getD_eq_getD_get?, List.getD_eq_getD_get?,
    List.get?_set_ne _ _ (fun hh => hne hh.symm)]

/-- Reading an updated heap at the updated index (in range). -/
theorem heapGet_set_self (h : TypeHeap) (i : Nat) (x : SemType) (hi : i < h.length) :
    heapGet (h.set i x) i = x := by
  unfold heapGet
  rw [List.getD_eq_getD_get?, List.get?_set_eq_of_lt x hi]
  rfl

/-- Appending one heap cell preserves the freshness invariant when the new
cell's id (if it is a record or array) sits between the old and the new
counter value. -/
theorem ctxHeapInv_append (s : SemState) (t : SemType) (nr2 na2 : Nat)
    (hrb2 : s.nextRecordId ≤ nr2) (hab2 : s.nextArrayId ≤ na2)
    (hrec : ∀ f id, t = .recordT f id → s.nextRecordId ≤ id ∧ id < nr2)
    (harr : ∀ e id, t = .arrayT e id → s.nextArrayId ≤ id ∧ id < na2)
    (hinv : ctxHeapInv s) :
    ctxHeapInv { s with heap := s.heap ++ [t], nextRecordId := nr2, nextArrayId := na2 } := by
  obtain ⟨hrb, hrm, hab, ham⟩ := hinv
  refine ⟨?_, ?_, ?_, ?_⟩
  · intro i f id hg
    simp only [heapGet_append] at hg
    split at hg
    · exact Nat.lt_of_lt_of_le (hrb _ _ _ hg) hrb2
    · split at hg
      · exact (hrec _ _ hg).2
      · cases hg
  · intro i j fi idi fj idj hij hgi hgj
    simp only [heapGet_append] at hgi hgj
    split at hgj
    · have hilt : i < s.heap.length := by omega
      simp only [if_pos hilt] at hgi
      exact hrm _ _ _ _ _ _ hij hgi hgj
    · split at hgj
      · have hilt : i < s.heap.length := by omega
        simp only [if_pos hilt] at hgi
        exact Nat.lt_of_lt_of_le (hrb _ _ _ hgi) (hrec _ _ hgj).1
      · cases hgj
  · intro i e id hg
    simp only [heapGet_append] at hg
    split at hg
    · exact Nat.lt_of_lt_of_le (hab _ _ _ hg) hab2
    · split at hg
      · exact (harr _ _ hg).2
      · cases hg
  · intro i j ei idi ej idj hij hgi hgj
    simp only [heapGet_append] at hgi hgj
    split at hgj
    · have hilt : i < s.heap.length := by omega
      simp only [if_pos hilt] at hgi
      exact ham _ _ _ _ _ _ hij hgi hgj
    · split at hgj
      · have hilt : i < s.heap.length := by omega
        simp only [if_pos hilt] at hgi
        exact Nat.lt_of_lt_of_le (hab _ _ _ hgi) (harr _ _ hgj).1
      · cases hgj

/-- Overwriting one heap cell with a record-id- and array-preserving update
keeps the freshness invariant. -/
theorem ctxHeapInv_set (s : SemState) (i : Nat) (x : SemType)
    (hrec : ∀ id, (∃ f, x = SemType.recordT f id) ↔ (∃ f, heapGet s.heap i = .recordT f id))
    (harr : ∀ e id, x = SemType.arrayT e id ↔ heapGet s.heap i = .arrayT e id)
    (hinv : ctxHeapInv s) :
    ctxHeapInv { s with heap := s.heap.set i x } := by
  obtain ⟨hrb, hrm, hab, ham⟩ := hinv
  by_cases hin : i < s.heap.length
  case neg =>
    rw [show s.heap.set i x = s.heap from List.set_eq_of_length_le (by omega)]
    exact ⟨hrb, hrm, hab, ham⟩
  have hget : ∀ j, j ≠ i → heapGet (s.heap.set i x) j = heapGet s.heap j :=
    fun j hj => heapGet_set_ne s.heap i j x hj
  have hgeti : heapGet (s.heap.set i x) i = x := heapGet_set_self s.heap i x hin
  have recView : ∀ j id, (∃ f, heapGet (s.heap.set i x) j = .recordT f id) →
      (∃ f, heapGet s.heap j = .recordT f id) := by
    intro j id hj
    by_cases hji : j = i
    · subst hji
      rw [hgeti] at hj
      exact (hrec id).mp hj
    · rw [hget j hji] at hj
      exact hj
  have arrView : ∀ j e id, heapGet (s.heap.set i x) j = .arrayT e id →
      heapGet s.heap j = .arrayT e id := by
    intro j e id hj
    by_cases hji : j = i
    · subst hji
      rw [hgeti] at hj
      exact (harr e id).mp hj
    · rw [hget j hji] at hj
      exact hj
  refine ⟨?_, ?_, ?_, ?_⟩
  · intro j f id hg
    obtain ⟨f2, hf2⟩ := recView j id ⟨f, hg⟩
    exact hrb _ _ _ hf2
  · intro a b fa ida fb idb hab2 hga hgb
    obtain ⟨fa2, ha2⟩ := recView a ida ⟨fa, hga⟩
    obtain ⟨fb2, hb2⟩ := recView b idb ⟨fb, hgb⟩
    exact hrm _ _ _ _ _ _ hab2 ha2 hb2
  · intro j e id hg
    exact hab _ _ _ (arrView j e id hg)
  · intro a b ea ida eb idb hab2 hga hgb
    exact ham _ _ _ _ _ _ hab2 (arrView a ea ida hga) (arrView b eb idb hgb)

/-- Every `TypeContext`-level heap operation preserves the freshness
invariant. -/
theorem ctxHeapInv_op (s : SemState) (op : CtxOp) (hinv : ctxHeapInv s) :
    ctxHeapInv (applyCtxOp s op) := by
  cases op with
  | newRecordOp =>
    show ctxHeapInv { s with heap := s.heap ++ [.recordT [] s.nextRecordId],
                             nextRecordId := s.nextRecordId + 1 }
    have h := ctxHeapInv_append s (.recordT [] s.nextRecordId) (s.nextRecordId + 1)
      s.nextArrayId (by omega) (by omega)
      (by intro f id hg; cases hg; omega)
      (by intro e id hg; cases hg) hinv
    exact h
  | newArrayOp elem =>
    show ctxHeapInv { s with heap := s.heap ++ [.arrayT elem s.nextArrayId],
                             nextArrayId := s.nextArrayId + 1 }
    have h := ctxHeapInv_append s (.arrayT elem s.nextArrayId) s.nextRecordId
      (s.nextArrayId + 1) (by omega) (by omega)
      (by intro f id hg; cases hg)
      (by intro e id hg; cases hg; omega) hinv
    exact h
  | newNameOp name =>
    show ctxHeapInv { s with heap := s.heap ++ [.nameT name none] }
    have h := ctxHeapInv_append s (.nameT name none) s.nextRecordId s.nextArrayId
      (by omega) (by omega)
      (by intro f id hg; cases hg)
      (by intro e id hg; cases hg) hinv
    exact ⟨h.1, h.2.1, h.2.2.1, h.2.2.2⟩
  | bindOp i target =>
    refine ctxHeapInv_set s i _ ?_ ?_ hinv
    · intro id
      rcases hx : heapGet s.heap i <;> simp [hx]
    · intro e id
      rcases hx : heapGet s.heap i <;> simp [hx]
  | addFieldOp i name ty =>
    refine ctxHeapInv_set s i _ ?_ ?_ hinv
    · intro id
      rcases hx : heapGet s.heap i <;> simp [hx]
    · intro e id
      rcases hx : heapGet s.heap i <;> simp [hx]

/-- The freshness invariant holds after any sequence of heap operations. -/
theorem ctxHeapInv_runOps (ops : List CtxOp) (s : SemState) (hinv : ctxHeapInv s) :
    ctxHeapInv (runCtxOps ops s) := by
  induction ops generalizing s with
  | nil => exact hinv
  | cons op rest ih => exact ih _ (ctxHeapInv_op s op hinv)

/-- The initial environment (only the four primitive instances) satisfies
the freshness invariant. -/
theorem ctxHeapInv_initial : ctxHeapInv initialSemState := by
  have hh : initialSemState.heap = [.intT, .stringT, .nilT, .voidT] := rfl
  refine ⟨?_, ?_, ?_, ?_⟩
  · intro i f id hg
    rw [hh] at hg
    rcases i with _ | _ | _ | _ | i <;> simp [heapGet, List.getD] at hg
  · intro i j fi idi fj idj hij hgi hgj
    rw [hh] at hgj
    rcases j with _ | _ | _ | _ | j <;> simp [heapGet, List.getD] at hgj
  · intro i e id hg
    rw [hh] at hg
    rcases i with _ | _ | _ | _ | i <;> simp [heapGet, List.getD] at hg
  · intro i j ei idi ej idj hij hgi hgj
    rw [hh] at hgj
    rcases j with _ | _ | _ | _ | j <;> simp [heapGet, List.getD] at hgj

set_option maxHeartbeats 1600000 in
/-- C8: counterexample — `let type r = {} type a = array of int in 0 end`
is accepted, and the Record and Array its two declarations create (the
first record and the first array of the run, heap cells 4 and 5 of
`recAndArrCtx`) have the SAME integer id 0: `nextRecordId_` and
`nextArrayId_` are separate counters, so the ids of a record/array pair
need not differ. -/
theorem fresh_id_counterexample :
    semAnalyze 20 pRecAndArr = .ok intIdx ∧
    heapGet recAndArrCtx.heap 4 = .recordT [] 0 ∧
    heapGet recAndArrCtx.heap 5 = .arrayT 0 0 ∧
    heapId recAndArrCtx.heap 4 = heapId recAndArrCtx.heap 5 ∧ (4 : Nat) ≠ 5 :=
  ⟨rfl, rfl, rfl, rfl, by omega⟩

/-- C8 (amended): within each kind the ids are fresh and monotone — after
any sequence of `TypeContext` heap operations, record ids strictly increase
with allocation order (hence all records have pairwise distinct ids), and
likewise array ids; a record and an array may share an id (the counters are
separate) but never compare equal, their kinds already differ — so no two
distinct record/array declarations, even structurally identical ones,
compare equal. -/
theorem fresh_id_amended :
    (∀ (ops : List CtxOp) (i j : Nat) (fi : List (String × Nat)) (idi : Nat)
        (fj : List (String × Nat)) (idj : Nat), i < j →
      heapGet (runCtxOps ops initialSemState).heap i = .recordT fi idi →
      heapGet (runCtxOps ops initialSemState).heap j = .recordT fj idj → idi < idj) ∧
    (∀ (ops : List CtxOp) (i j ei idi ej idj : Nat), i < j →
      heapGet (runCtxOps ops initialSemState).heap i = .arrayT ei idi →
      heapGet (runCtxOps ops initialSemState).heap j = .arrayT ej idj → idi < idj) ∧
    (∀ (h : TypeHeap) (i j : Nat),
      (heapGet h i).isRecordK = true → (heapGet h j).isArrayK = true →
      equals h i j = false ∧ equals h j i = false) ∧
    equals recAndArrCtx.heap 4 5 = false ∧
    equals recAndArrCtx.heap 5 4 = false := by
  refine ⟨?_, ?_, ?_, rfl, rfl⟩
  · intro ops i j fi idi fj idj hij hgi hgj
    exact (ctxHeapInv_runOps ops initialSemState ctxHeapInv_initial).2.1
      i j fi idi fj idj hij hgi hgj
  · intro ops i j ei idi ej idj hij hgi hgj
    exact (ctxHeapInv_runOps ops initialSemState ctxHeapInv_initial).2.2.2
      i j ei idi ej idj hij hgi hgj
  · intro h i j h1 h2
    constructor <;> unfold equals equalsAux <;>
      rcases hx : heapGet h i <;> rcases hy : heapGet h j <;>
      simp_all [SemType.isRecordK, SemType.isArrayK]

/-- C8 amended, witnessed: two records created in sequence get ids 0 < 1,
and a concrete record/array pair compares unequal both ways. -/
theorem fresh_id_amended_witness :
    (0 : Nat) < 1 ∧
    (equals [SemType.recordT [] 0, SemType.arrayT 0 0] 0 1 = false ∧
     equals [SemType.recordT [] 0, SemType.arrayT 0 0] 1 0 = false) :=
  ⟨fresh_id_amended.1 [.newRecordOp, .newRecordOp] 4 5 [] 0 [] 1 (by omega) rfl rfl,
   fresh_id_amended.2.2.1 [SemType.recordT [] 0, SemType.arrayT 0 0] 0 1 rfl rfl⟩

/-- A chain step shifts the chain: one step from `i` lands at `b`, and the
chain from `i` offset by one is the chain from `b`. -/
theorem chainAt_shift (h : TypeHeap) (i b : Nat) (nm : String)
    (hstep : heapGet h i = .nameT nm (some b)) (hb : (heapGet h b).isNameK = true) :
    ∀ k, chainAt h i (k + 1) = chainAt h b k := by
  intro k
  induction k with
  | zero => simp [chainAt, hstep, hb]
  | succ k ih =>
    show (match chainAt h i (k + 1) with
          | some j =>
            match heapGet h j with
            | .nameT _ (some b2) => if (heapGet h b2).isNameK then some b2 else none
            | _ => none
          | none => none) = chainAt h b (k + 1)
    rw [ih]
    rfl

/-- Chains defined at a later index are defined at every earlier one. -/
theorem chainAt_mono (h : TypeHeap) (i : Nat) :
    ∀ a b, b ≤ a → (chainAt h i a).isSome → (chainAt h i b).isSome := by
  intro a
  induction a with
  | zero =>
    intro b hb hs
    interval_cases b
    exact hs
  | succ a ih =>
    intro b hb hs
    rcases Nat.lt_or_ge b (a + 1) with hlt | hge
    · refine ih b (by omega) ?_
      revert hs
      show (match chainAt h i a with
            | some j =>
              match heapGet h j with
              | .nameT _ (some b2) => if (heapGet h b2).isNameK then some b2 else none
              | _ => none
            | none => none).isSome = true → (chainAt h i a).isSome = true
      cases chainAt h i a <;> simp
    · have : b = a + 1 := by omega
      subst this
      exact hs

/-- Every chain node past the start is a `NameType`. -/
theorem chainAt_is_name (h : TypeHeap) (i : Nat) (k : Nat) (j : Nat)
    (hj : chainAt h i (k + 1) = some j) : (heapGet h j).isNameK = true := by
  rw [chainAt] at hj
  split at hj
  · split at hj
    · split at hj
      · cases hj
        assumption
      · cases hj
    · cases hj
  · cases hj

/-- A filterMap whose function is total on the list keeps its length. -/
theorem filterMap_length_all_some {α β : Type} (l : List α) (f : α → Option β)
    (hall : ∀ a, a ∈ l → (f a).isSome) : (l.filterMap f).length = l.length := by
  induction l with
  | nil => rfl
  | cons x xs ih =>
    have hx := hall x (by simp)
    rcases hfx : f x with _ | y
    · rw [hfx] at hx
      cases hx
    · simp [List.filterMap_cons, hfx, ih (fun a ha => hall a (by simp [ha]))]

/-- Shifting the chain shifts the collected names. -/
theorem chainNames_shift (h : TypeHeap) (i b : Nat) (nm depName : String)
    (hstep : heapGet h i = .nameT nm (some b)) (hb : (heapGet h b).isNameK = true)
    (hbname : nameAt h b = some depName) :
    ∀ m, chainNames h i (m + 1) = depName :: chainNames h b m := by
  intro m
  unfold chainNames
  rw [List.range_succ_eq_map, List.filterMap_cons, List.filterMap_map]
  have h0 : chainAt h i (0 + 1) = some b := chainAt_shift h i b nm hstep hb 0
  simp only [h0, Option.some_bind, hbname]
  congr 1
  refine List.filterMap_congr ?_
  intro k hk
  show (chainAt h i (k + 1 + 1)).bind (nameAt h) = (chainAt h b (k + 1)).bind (nameAt h)
  rw [chainAt_shift h i b nm hstep hb (k + 1)]

/-- Unpacking the first chain step. -/
theorem chainAt_one (h : TypeHeap) (i b : Nat) (hb : chainAt h i (0 + 1) = some b) :
    ∃ nm, heapGet h i = .nameT nm (some b) ∧ (heapGet h b).isNameK = true := by
  have hb2 : (match heapGet h i with
              | SemType.nameT _ (some b2) =>
                if (heapGet h b2).isNameK = true then some b2 else none
              | _ => none) = some b := hb
  split at hb2
  · rename_i nm b2 hgi
    split at hb2
    · rename_i hbn
      cases hb2
      exact ⟨nm, hgi, hbn⟩
    · cases hb2
  · cases hb2

/-- One unfolding of the chase when the current node is a bound name whose
binding is again a name. -/
theorem chaseCycle_step (h : TypeHeap) (start : String) (fuel : Nat)
    (deps cycle : List String) (i b : Nat) (nm depName : String) (bb : Option Nat)
    (hgi : heapGet h i = .nameT nm (some b)) (hgb : heapGet h b = .nameT depName bb) :
    chaseCycle h start (fuel + 1) deps cycle i =
      (if depName ∈ deps then
        some ("Find a cycle of type declaration '" ++ start ++ "': " ++
          (cycle ++ [depName]).foldl (fun acc dep => acc ++ " -> '" ++ dep ++ "'") "")
      else chaseCycle h start fuel (depName :: deps) (cycle ++ [depName]) b) := by
  have h1 : chaseCycle h start (fuel + 1) deps cycle i =
      (match heapGet h b with
       | SemType.nameT depName2 _ =>
         let cycle2 := cycle ++ [depName2]
         if depName2 ∈ deps then
           some ("Find a cycle of type declaration '" ++ start ++ "': " ++
             cycle2.foldl (fun acc dep => acc ++ " -> '" ++ dep ++ "'") "")
         else chaseCycle h start fuel (depName2 :: deps) cycle2 b
       | _ => none) := by
    rw [chaseCycle, hgi]
  rw [h1, hgb]

/-- Soundness of the phase-3 chase: an error report implies a repeated name
along the chain (relative to the running `deps` set). -/
theorem chase_sound (h : TypeHeap) (start : String) :
    ∀ (fuel : Nat) (deps cycle : List String) (i : Nat) (e : String),
      chaseCycle h start fuel deps cycle i = some e →
      ∃ m im n, chainAt h i (m + 1) = some im ∧ nameAt h im = some n ∧
        (n ∈ deps ∨ n ∈ chainNames h i m) := by
  intro fuel
  induction fuel with
  | zero => intro deps cycle i e hc; cases hc
  | succ fuel ih =>
    intro deps cycle i e hc
    rw [chaseCycle] at hc
    split at hc
    case _ nm b hgi =>
      split at hc
      case _ depName bb hgb =>
        have hbn : (heapGet h b).isNameK = true := by rw [hgb]; rfl
        have hstep : chainAt h i (0 + 1) = some b := by
          show (match heapGet h i with
                | SemType.nameT _ (some b2) =>
                  if (heapGet h b2).isNameK = true then some b2 else none
                | _ => none) = some b
          rw [hgi]
          show (if (heapGet h b).isNameK = true then some b else none) = some b
          rw [if_pos hbn]
        have hnb : nameAt h b = some depName := by rw [nameAt, hgb]
        split at hc
        · exact ⟨0, b, depName, hstep, hnb, .inl (by assumption)⟩
        · obtain ⟨m2, im, n, hch, hnm, hmem⟩ := ih _ _ _ _ hc
          refine ⟨m2 + 1, im, n, ?_, hnm, ?_⟩
          · rw [chainAt_shift h i b nm hgi hbn (m2 + 1)]
            exact hch
          · rw [chainNames_shift h i b nm depName hgi hbn hnb m2]
            rcases hmem with hmem | hmem
            · rcases List.mem_cons.mp hmem with hmem | hmem
              · exact .inr (by simp [hmem])
              · exact .inl hmem
            · exact .inr (by simp [hmem])
      all_goals cases hc
    all_goals cases hc

/-- Completeness of the phase-3 chase: a repeated name at chain position
m + 1 is reported whenever the fuel exceeds m. -/
theorem chase_complete (h : TypeHeap) (start : String) :
    ∀ (m fuel : Nat), m < fuel →
      ∀ (deps cycle : List String) (i im : Nat) (n : String),
        chainAt h i (m + 1) = some im → nameAt h im = some n →
        (n ∈ deps ∨ n ∈ chainNames h i m) →
        (chaseCycle h start fuel deps cycle i).isSome := by
  intro m
  induction m with
  | zero =>
    intro fuel hf deps cycle i im n hchain hname hmem
    obtain ⟨nm, hgi, hbn⟩ := chainAt_one h i im hchain
    rcases fuel with _ | fuel
    · omega
    have hex : ∃ n2 bb, heapGet h im = SemType.nameT n2 bb := by
      cases hx : heapGet h im
      case nameT nmx bbx => exact ⟨nmx, bbx, rfl⟩
      all_goals (rw [hx] at hbn; simp [SemType.isNameK] at hbn)
    obtain ⟨n2, bb, hgb⟩ := hex
    have hn2 : n2 = n := by
      rw [nameAt, hgb] at hname
      cases hname
      rfl
    subst hn2
    rw [chaseCycle_step h start fuel deps cycle i im nm n2 bb hgi hgb]
    have hdeps : n2 ∈ deps := by
      rcases hmem with hmem | hmem
      · exact hmem
      · simp [chainNames] at hmem
    simp [hdeps]
  | succ m ih =>
    intro fuel hf deps cycle i im n hchain hname hmem
    have h1 : (chainAt h i (0 + 1)).isSome :=
      chainAt_mono h i (m + 1 + 1) (0 + 1) (by omega) (by rw [hchain]; rfl)
    rcases hb : chainAt h i (0 + 1) with _ | b
    · rw [hb] at h1; cases h1
    obtain ⟨nm, hgi, hbn⟩ := chainAt_one h i b hb
    rcases fuel with _ | fuel
    · omega
    have hex : ∃ n2 bb, heapGet h b = SemType.nameT n2 bb := by
      cases hx : heapGet h b
      case nameT nmx bbx => exact ⟨nmx, bbx, rfl⟩
      all_goals (rw [hx] at hbn; simp [SemType.isNameK] at hbn)
    obtain ⟨depName, bb, hgb⟩ := hex
    rw [chaseCycle_step h start fuel deps cycle i b nm depName bb hgi hgb]
    have hnb : nameAt h b = some depName := by rw [nameAt, hgb]
    have hchain2 : chainAt h b (m + 1) = some im := by
      rw [← chainAt_shift h i b nm hgi hbn (m + 1)]
      exact hchain
    have hnames : chainNames h i (m + 1) = depName :: chainNames h b m :=
      chainNames_shift h i b nm depName hgi hbn hnb m
    by_cases hdep : depName ∈ deps
    · simp [hdep]
    · simp only [hdep, if_neg, if_false]
      refine ih fuel (by omega) (depName :: deps) _ b im n hchain2 hname ?_
      rcases hmem with hmem | hmem
      · exact .inl (by simp [hmem])
      · rw [hnames] at hmem
        rcases List.mem_cons.mp hmem with hmem | hmem
        · exact .inl (by simp [hmem])
        · exact .inr hmem

/-- A name reachable through `nameAt` labels some heap cell. -/
theorem nameAt_mem_allNames (h : TypeHeap) (j : Nat) (n : String)
    (hn : nameAt h j = some n) : n ∈ allNames h := by
  cases hx : heapGet h j
  case nameT nm bb =>
    rw [nameAt, hx] at hn
    cases hn
    have hjlt : j < h.length := by
      by_contra hge
      rw [show heapGet h j = SemType.voidT from List.getD_eq_default _ _ (by omega)] at hx
      cases hx
    have hmem : SemType.nameT n bb ∈ h := by
      rw [← hx, heapGet, List.getD_eq_getElem _ _ hjlt]
      exact List.getElem_mem hjlt
    exact List.mem_filterMap.mpr ⟨SemType.nameT n bb, hmem, rfl⟩
  all_goals (rw [nameAt, hx] at hn; cases hn)

/-- C5: the phase-3 cycle check follows each alias's binding while it is
another alias and errors exactly when a name repeats along that chain before
a non-alias is reached: the chase (invoked with `h.length + 1` fuel, which
dominates every chain without a repetition) reports an error iff
`chainRepeats` holds; in particular `let type a = b type b = a in 0 end` is
rejected with the cycle message while the recursive record
`let type list = {head: int, tail: list} in 0 end` is accepted. -/
theorem cycle_check_characterized :
    semAnalyze 50 pCycle = .error "Find a cycle of type declaration 'a':  -> 'b' -> 'a'" ∧
    semAnalyze 50 pRecList = .ok intIdx ∧
    (∀ (h : TypeHeap) (start : String) (i : Nat),
      (chaseCycle h start (h.length + 1) [start] [] i).isSome = true ↔
        chainRepeats h start i) := by
  refine ⟨rfl, rfl, ?_⟩
  intro h start i
  constructor
  · intro hs
    obtain ⟨e, he⟩ := Option.isSome_iff_exists.mp hs
    obtain ⟨m, im, n, hch, hnm, hmem⟩ := chase_sound h start _ _ _ _ _ he
    refine ⟨m, im, n, hch, hnm, ?_⟩
    rcases hmem with hmem | hmem
    · exact .inl (by simpa using hmem)
    · exact .inr hmem
  · intro hrep
    classical
    have hex : ∃ m, ∃ im n, chainAt h i (m + 1) = some im ∧ nameAt h im = some n ∧
        (n = start ∨ n ∈ chainNames h i m) := hrep
    obtain ⟨im, n, hch, hnm, hmem⟩ := Nat.find_spec hex
    have hbound : Nat.find hex ≤ h.length := by
      by_contra hbig
      have hlen : h.length < Nat.find hex := by omega
      have hfdef : ∀ k, k < Nat.find hex → ∃ jk nk, chainAt h i (k + 1) = some jk ∧
          nameAt h jk = some nk ∧
          ((chainAt h i (k + 1)).bind (nameAt h)).getD "" = nk := by
        intro k hk
        have hsome : (chainAt h i (k + 1)).isSome :=
          chainAt_mono h i (Nat.find hex + 1) (k + 1) (by omega) (by rw [hch]; rfl)
        obtain ⟨jk, hj⟩ := Option.isSome_iff_exists.mp hsome
        have hname : (heapGet h jk).isNameK = true := chainAt_is_name h i k jk hj
        have hnsome : ∃ nk, nameAt h jk = some nk := by
          cases hx : heapGet h jk
          case nameT nmx bbx => exact ⟨nmx, by rw [nameAt, hx]⟩
          all_goals (rw [hx] at hname; simp [SemType.isNameK] at hname)
        obtain ⟨nk, hnk⟩ := hnsome
        exact ⟨jk, nk, hj, hnk, by rw [hj, Option.some_bind, hnk]; rfl⟩
      have hmaps : ∀ k ∈ Finset.range (Nat.find hex),
          ((chainAt h i (k + 1)).bind (nameAt h)).getD "" ∈ (allNames h).toFinset := by
        intro k hk
        obtain ⟨jk, nk, hj, hnk, hf⟩ := hfdef k (Finset.mem_range.mp hk)
        rw [hf]
        exact List.mem_toFinset.mpr (nameAt_mem_allNames h jk nk hnk)
      have hcard : (allNames h).toFinset.card < (Finset.range (Nat.find hex)).card := by
        have h1 : (allNames h).toFinset.card ≤ (allNames h).length := List.toFinset_card_le _
        have h2 : (allNames h).length ≤ h.length := List.length_filterMap_le _ _
        rw [Finset.card_range]
        omega
      obtain ⟨a, ha, b, hb, hab, hfab⟩ :=
        Finset.exists_ne_map_eq_of_card_lt_of_maps_to hcard hmaps
      have key : ∀ x y, x < y → y < Nat.find hex →
          ((chainAt h i (x + 1)).bind (nameAt h)).getD "" =
            ((chainAt h i (y + 1)).bind (nameAt h)).getD "" → False := by
        intro x y hxy hym hfeq
        obtain ⟨jy, ny, hjy, hny, hfy⟩ := hfdef y hym
        obtain ⟨jx, nx, hjx, hnx, hfx⟩ := hfdef x (by omega)
        refine Nat.find_min hex hym ⟨jy, ny, hjy, hny, .inr ?_⟩
        have hnxy : nx = ny := by rw [← hfx, hfeq, hfy]
        rw [← hnxy]
        refine List.mem_filterMap.mpr ⟨x, List.mem_range.mpr hxy, ?_⟩
        rw [hjx, Option.some_bind, hnx]
      rcases Nat.lt_or_ge a b with hlt | hge
      · exact key a b hlt (Finset.mem_range.mp hb) hfab
      · have hlt : b < a := by
          rcases Nat.lt_or_ge b a with hlt | hge2
          · exact hlt
          · omega
        exact key b a hlt (Finset.mem_range.mp ha) hfab.symm
    refine chase_complete h start (Nat.find hex) (h.length + 1) (by omega)
      [start] [] i im n hch hnm ?_
    rcases hmem with hmem | hmem
    · exact .inl (by simp [hmem])
    · exact .inr hmem

/-! ### C6 support: the escape analyzer computes the spec's escape set -/

theorem scopeFind_append {α : Type} (a b : Scope α) (n : String) :
    scopeFind (a ++ b) n =
      (match scopeFind a n with
       | some v => some v
       | none => scopeFind b n) := by
  induction a with
  | nil => rfl
  | cons x xs ih =>
    obtain ⟨nm, v⟩ := x
    by_cases hn : nm = n <;> simp [scopeFind, hn, ih]

theorem tableLookup_flatten {α : Type} (scopes : List (Scope α)) (n : String) :
    tableLookup scopes n = scopeFind scopes.flatten n := by
  induction scopes with
  | nil => rfl
  | cons sc rest ih =>
    rw [tableLookup, List.flatten_cons, scopeFind_append]
    cases scopeFind sc n <;> simp [ih]

theorem checkEscape_spec (name : String) (s : EscState) :
    checkEscape name s = ⟨s.envStack, s.depth,
      (specExpr (.varSimple name) s.envStack.flatten s.depth).reverse ++ s.flags⟩ := by
  rw [checkEscape, tableLookup_flatten]
  cases h : scopeFind s.envStack.flatten name with
  | none => simp [specExpr, h]
  | some v =>
    obtain ⟨dd, l⟩ := v
    by_cases hd : s.depth > dd <;> simp [specExpr, h, hd]

theorem enterParamsE_stack (ps : List Param) (hd : Scope (Nat × Nat))
    (rest : List (Scope (Nat × Nat))) (d : Nat) (fl : List Nat) :
    enterParamsE ps ⟨hd :: rest, d, fl⟩ =
      ⟨(ps.foldl (fun sc p => (p.name, (d, p.lbl)) :: sc) hd) :: rest, d, fl⟩ := by
  induction ps generalizing hd with
  | nil => rfl
  | cons p ps ih =>
    simp only [enterParamsE, List.foldl_cons] at *
    exact ih ((p.name, (d, p.lbl)) :: hd)

theorem specParams_eq (ps : List Param) (d : Nat) (hd ρ2 : EscEnv) :
    (ps.foldl (fun sc p => (p.name, (d, p.lbl)) :: sc) hd) ++ ρ2 =
      specParams ps d (hd ++ ρ2) := by
  induction ps generalizing hd with
  | nil => rfl
  | cons p ps ih =>
    simp only [List.foldl_cons, specParams] at *
    rw [ih ((p.name, (d, p.lbl)) :: hd)]
    simp [specParams]

mutual

theorem escExpr_spec : (e : Expr) → (s : EscState) →
    escExpr e s = ⟨s.envStack, s.depth,
      (specExpr e s.envStack.flatten s.depth).reverse ++ s.flags⟩
  | .varSimple name, s => by
    rw [show escExpr (.varSimple name) s = checkEscape name s by rw [escExpr]]
    exact checkEscape_spec name s
  | .varField obj f, s => by
    rw [escExpr, escExpr_spec obj s]
    simp [specExpr]
  | .varSubscript obj index, s => by
    rw [escExpr, escExpr_spec obj s, escExpr_spec index]
    simp [specExpr, List.reverse_append]
  | .nilE, s => by simp [escExpr, specExpr]
  | .intE v, s => by simp [escExpr, specExpr]
  | .stringE v, s => by simp [escExpr, specExpr]
  | .callE f args, s => by
    rw [escExpr, escList_spec args s]
    simp [specExpr]
  | .opE op left right, s => by
    rw [escExpr, escExpr_spec left s, escExpr_spec right]
    simp [specExpr, List.reverse_append]
  | .recordE ty fields, s => by
    rw [escExpr, escFields_spec fields s]
    simp [specExpr]
  | .arrayE ty size init, s => by
    rw [escExpr, escExpr_spec size s, escExpr_spec init]
    simp [specExpr, List.reverse_append]
  | .assignE lhs rhs, s => by
    rw [escExpr, escExpr_spec lhs s, escExpr_spec rhs]
    simp [specExpr, List.reverse_append]
  | .ifE test thenc elsec, s => by
    cases elsec with
    | none =>
      rw [escExpr]
      rw [escExpr_spec test s, escExpr_spec thenc]
      simp [specExpr, List.reverse_append]
    | some els =>
      rw [escExpr]
      rw [escExpr_spec test s, escExpr_spec thenc, escExpr_spec els]
      simp [specExpr, List.reverse_append, List.append_assoc]
  | .whileE test body, s => by
    rw [escExpr, escExpr_spec test s, escExpr_spec body]
    simp [specExpr, List.reverse_append]
  | .forE lbl var lo hi body, s => by
    rw [escExpr]
    rw [show enterVarE var lbl (beginScopeE s) =
        ⟨[(var, (s.depth, lbl))] :: s.envStack, s.depth, s.flags⟩ from rfl]
    rw [escExpr_spec lo, escExpr_spec hi, escExpr_spec body]
    simp [specExpr, endScopeE, List.reverse_append, List.append_assoc]
  | .breakE, s => by simp [escExpr, specExpr]
  | .letE decls body, s => by
    rw [escExpr]
    rw [show beginScopeE s = ⟨[] :: s.envStack, s.depth, s.flags⟩ from rfl]
    rw [escDecls_spec decls _ [] s.envStack rfl]
    simp only [List.flatten_cons, List.nil_append, List.append_nil]
    rcases hsd : specDecls decls s.envStack.flatten s.depth with ⟨adds, fl⟩
    rw [escList_spec body]
    simp [specExpr, endScopeE, hsd, List.reverse_append, List.flatten_cons]
  | .seqE exprs, s => by
    rw [escExpr, escList_spec exprs s]
    simp [specExpr]

theorem escList_spec : (es : List Expr) → (s : EscState) →
    escList es s = ⟨s.envStack, s.depth,
      (specListE es s.envStack.flatten s.depth).reverse ++ s.flags⟩
  | [], s => by simp [escList, specListE]
  | e :: rest, s => by
    rw [escList, escExpr_spec e s, escList_spec rest]
    simp [specListE, List.reverse_append]

theorem escFields_spec : (fs : List (String × Expr)) → (s : EscState) →
    escFields fs s = ⟨s.envStack, s.depth,
      (specFieldsE fs s.envStack.flatten s.depth).reverse ++ s.flags⟩
  | [], s => by simp [escFields, specFieldsE]
  | (nm, e) :: rest, s => by
    rw [escFields, escExpr_spec e s, escFields_spec rest]
    simp [specFieldsE, List.reverse_append]

theorem escDecls_spec : (ds : List Decl) → (s : EscState) → (sc : Scope (Nat × Nat)) →
    (rest : List (Scope (Nat × Nat))) → (hs : s.envStack = sc :: rest) →
    escDecls ds s = ⟨((specDecls ds s.envStack.flatten s.depth).1 ++ sc) :: rest, s.depth,
      ((specDecls ds s.envStack.flatten s.depth).2).reverse ++ s.flags⟩
  | [], s, sc, rest, hs => by
    simp only [escDecls, specDecls, List.nil_append, List.reverse_nil]
    rw [← hs]
  | d0 :: ds, s, sc, rest, hs => by
    rw [escDecls, escDecl_spec d0 s sc rest hs]
    rw [escDecls_spec ds _ ((specDecl d0 s.envStack.flatten s.depth).1 ++ sc) rest rfl]
    simp only [hs, List.flatten_cons, List.append_assoc]
    rcases hs1 : specDecl d0 ((sc :: rest).flatten) s.depth with ⟨a1, f1⟩
    rcases hs2 : specDecls ds (a1 ++ (sc :: rest).flatten) s.depth with ⟨a2, f2⟩
    simp [specDecls, List.flatten_cons, hs1, List.append_assoc, hs2, List.reverse_append]

theorem escDecl_spec : (d0 : Decl) → (s : EscState) → (sc : Scope (Nat × Nat)) →
    (rest : List (Scope (Nat × Nat))) → (hs : s.envStack = sc :: rest) →
    escDecl d0 s = ⟨((specDecl d0 s.envStack.flatten s.depth).1 ++ sc) :: rest, s.depth,
      ((specDecl d0 s.envStack.flatten s.depth).2).reverse ++ s.flags⟩
  | .typeD nm ty, s, sc, rest, hs => by
    simp only [escDecl, specDecl, List.nil_append, List.reverse_nil]
    rw [← hs]
  | .varD lbl name ty init, s, sc, rest, hs => by
    rw [escDecl, escExpr_spec init s]
    simp [enterVarE, tableEnter, hs, specDecl]
  | .funD nm params ret body, s, sc, rest, hs => by
    rw [escDecl]
    rw [show beginScopeE { s with depth := s.depth + 1 } =
        ⟨[] :: s.envStack, s.depth + 1, s.flags⟩ from rfl]
    rw [hs, enterParamsE_stack, escExpr_spec body]
    simp only [List.flatten_cons, List.nil_append]
    rw [specParams_eq params (s.depth + 1) [] (sc ++ rest.flatten)]
    simp [specDecl, endScopeE, List.flatten_cons, hs]

end

/-- C6: after escape analysis, exactly the labels that the specification's
escape set assigns are flagged: a declaration's escape bit is set iff some
occurrence of its name (resolved innermost-first through the binding
structure) appears at a strictly greater function-nesting depth than the
declaration, where only function-body entry increments the depth. -/
theorem escape_analysis_correct (e : Expr) (l : Nat) :
    l ∈ escAnalyze e ↔ l ∈ specEscapes e := by
  rw [escAnalyze, specEscapes]
  rw [show beginScopeE ⟨[], 0, []⟩ = (⟨[[]], 0, []⟩ : EscState) from rfl]
  rw [escExpr_spec e]
  simp [endScopeE]

end Tiger
